import Mathlib

/-!
Verification of the fumadocs-registry generator: a shallow embedding of the
dependency classification, export extraction, internal-dependency bundling and
manifest/demo generation code, together with proofs of the specified
properties.  Strings are modelled as Lean `String` values and all scanning is
implemented over `List Char`; JavaScript `Set`/`Map` values are modelled as
insertion-ordered lists; the file system is modelled as explicit oracles.
-/

set_option maxRecDepth 4000

/-- Left brace character, written via its code point. -/
def lbrace : Char := Char.ofNat 123

/-- Right brace character, written via its code point. -/
def rbrace : Char := Char.ofNat 125

/-- Single-quote character, written via its code point. -/
def squote : Char := Char.ofNat 39

/-- Double-quote character. -/
def dquote : Char := '"'

/-- ASCII model of the JavaScript regex class backslash-s. -/
def isJsWhite (c : Char) : Bool :=
  c == ' ' || c == '\t' || c == '\n' || c == '\r' || c == Char.ofNat 11 || c == Char.ofNat 12

/-- ASCII model of the JavaScript regex class backslash-w. -/
def isWordChar (c : Char) : Bool :=
  (('a' ≤ c) && (c ≤ 'z')) || (('A' ≤ c) && (c ≤ 'Z')) || (('0' ≤ c) && (c ≤ '9')) || c == '_'

/-- True when the first character is an ASCII letter (regex anchors A-Z / a-z). -/
def letterFirst (s : String) : Bool :=
  match s.data with
  | [] => false
  | c :: _ => (('a' ≤ c) && (c ≤ 'z')) || (('A' ≤ c) && (c ≤ 'Z'))

/-- Tests whether `pat` occurs at the very front of `cs`. -/
def leadsWith : List Char → List Char → Bool
  | [], _ => true
  | _ :: _, [] => false
  | p :: ps, c :: cs => p == c && leadsWith ps cs

/-- Substring test, modelling JavaScript `String.prototype.includes`. -/
def hasSub : List Char → List Char → Bool
  | [], pat => leadsWith pat []
  | c :: t, pat => leadsWith pat (c :: t) || hasSub t pat

/-- Removes the first occurrence of `pat`, modelling the string form of
JavaScript `String.prototype.replace` with an empty replacement. -/
def cutFirst : List Char → List Char → List Char
  | cs, pat =>
    match cs with
    | [] => []
    | c :: t => if leadsWith pat (c :: t) then (c :: t).drop pat.length else c :: cutFirst t pat

/-- String-level front-match test (JavaScript `startsWith`). -/
def sw (s p : String) : Bool := leadsWith p.data s.data

/-- String-level substring test (JavaScript `includes`). -/
def scontains (s sub : String) : Bool := hasSub s.data sub.data

/-- String-level first-occurrence removal (JavaScript `replace(pat, "")`). -/
def cutStr (s pat : String) : String := ⟨cutFirst s.data pat.data⟩

/-- Tests whether `pat` occurs at the very end of `cs`. -/
def endsWithL (cs pat : List Char) : Bool := leadsWith pat.reverse cs.reverse

/-- Removes a trailing `.json`, modelling the anchored regex replace. -/
def stripJsonExt (s : String) : String :=
  if endsWithL s.data ".json".data then ⟨s.data.take (s.data.length - 5)⟩ else s

/-- Removes a trailing source extension, modelling the regex for `.ts`, `.tsx`,
`.js` and `.jsx` endings. -/
def stripCodeExt (s : String) : String :=
  if endsWithL s.data ".tsx".data then ⟨s.data.take (s.data.length - 4)⟩
  else if endsWithL s.data ".jsx".data then ⟨s.data.take (s.data.length - 4)⟩
  else if endsWithL s.data ".ts".data then ⟨s.data.take (s.data.length - 3)⟩
  else if endsWithL s.data ".js".data then ⟨s.data.take (s.data.length - 3)⟩
  else s

/-- Removes one leading slash, modelling the anchored regex replace. -/
def stripLeadSlash (s : String) : String :=
  match s.data with
  | c :: t => if c == '/' then ⟨t⟩ else s
  | [] => s

/-- JavaScript `String.prototype.trim` on the ASCII whitespace model. -/
def jsTrim (s : String) : String :=
  ⟨((s.data.dropWhile isJsWhite).reverse.dropWhile isJsWhite).reverse⟩

/-- Splits a character list at every occurrence of `sep` (JavaScript `split`). -/
def splitOnCh (sep : Char) : List Char → List (List Char)
  | [] => [[]]
  | c :: t =>
    let r := splitOnCh sep t
    if c == sep then [] :: r
    else
      match r with
      | [] => [[c]]
      | h :: rest => (c :: h) :: rest

/-- String-level split (JavaScript `split` with a one-character separator). -/
def splitStr (s : String) (sep : Char) : List String :=
  (splitOnCh sep s.data).map (fun cs => ⟨cs⟩)

/-- ASCII lower-casing of one character. -/
def asciiLower (c : Char) : Char :=
  if ('A' ≤ c) && (c ≤ 'Z') then Char.ofNat (c.toNat + 32) else c

/-- ASCII upper-casing of one character. -/
def asciiUpper (c : Char) : Char :=
  if ('a' ≤ c) && (c ≤ 'z') then Char.ofNat (c.toNat - 32) else c

/-- JavaScript `charAt(0).toUpperCase() + slice(1)` on the ASCII model. -/
def capFirst (s : String) : String :=
  match s.data with
  | [] => ""
  | c :: t => ⟨asciiUpper c :: t⟩

/-- JavaScript `toLowerCase` on the ASCII model. -/
def lowerStr (s : String) : String := ⟨s.data.map asciiLower⟩

/-- Lookup in a JavaScript object modelled as an insertion-ordered list. -/
def recLookup (m : List (String × String)) (k : String) : Option String :=
  (m.find? (fun p => p.1 == k)).map (fun p => p.2)

/-- Property assignment on a JavaScript object: updates in place or appends. -/
def recSet (m : List (String × String)) (k v : String) : List (String × String) :=
  if m.any (fun p => p.1 == k) then m.map (fun p => if p.1 == k then (k, v) else p)
  else m ++ [(k, v)]

/-- Object spread `{...a, ...b}`: entries of `b` merged over `a`. -/
def recMerge (a b : List (String × String)) : List (String × String) :=
  b.foldl (fun acc p => recSet acc p.1 p.2) a

/-- The JavaScript `x || d` idiom for an optional string (empty is falsy). -/
def jsOrStr (v : Option String) (d : String) : String :=
  match v with
  | some s => if s == "" then d else s
  | none => d

/-- Adds an element to a JavaScript `Set` modelled as an insertion-ordered
duplicate-free list. -/
def setAdd (l : List String) (x : String) : List String :=
  if l.contains x then l else l ++ [x]

/-- Raw path segments of a string, split at slashes. -/
def pathSegsRaw (s : String) : List String := splitStr s '/'

/-- Absolute-path test. -/
def isAbsPath (s : String) : Bool := sw s "/"

/-- One step of POSIX path normalisation over a segment stack. -/
def normStep (acc : List String) (seg : String) : List String :=
  if seg == "" || seg == "." then acc
  else if seg == ".." then acc.dropLast
  else acc ++ [seg]

/-- Normalised absolute segment list of `p` resolved against `cwd`. -/
def absSegsOf (cwd p : String) : List String :=
  ((if isAbsPath p then [] else pathSegsRaw cwd) ++ pathSegsRaw p).foldl normStep []

/-- Renders an absolute segment list as a path string. -/
def joinSegs (l : List String) : String := "/" ++ String.intercalate "/" l

/-- Model of `path.resolve(cwd, p)` for a single operand. -/
def resolveAbs (cwd p : String) : String := joinSegs (absSegsOf cwd p)

/-- Model of `path.resolve(dir, p)` under the process working directory. -/
def pathResolveIn (cwd dir p : String) : String :=
  if isAbsPath p then resolveAbs cwd p else resolveAbs cwd (dir ++ "/" ++ p)

/-- Model of `path.dirname`. -/
def pathDirname (s : String) : String :=
  let parts := splitStr s '/'
  if parts.length ≤ 1 then "."
  else
    let d := String.intercalate "/" parts.dropLast
    if d == "" then "/" else d

/-- Model of `path.basename`: the last non-empty segment. -/
def pathBasename (s : String) : String :=
  ((pathSegsRaw s).filter (fun x => x != "")).getLastD ""

/-- Model of `path.relative(cwd, p)`. -/
def pathRelative (cwd p : String) : String :=
  let base := (pathSegsRaw cwd).foldl normStep []
  let target := absSegsOf cwd p
  let common := List.range (min base.length target.length) |>.takeWhile
    (fun i => base.getD i "" == target.getD i "")
  let k := common.length
  String.intercalate "/" (List.replicate (base.length - k) ".." ++ target.drop k)

/-- Resolved configuration of the generator (`ResolvedOptions` in the source). -/
structure ResolvedOptions where
  baseUrl : String
  registryName : String
  registryHomepage : String
  componentsDir : String
  componentsDirs : List (String × String)
  docsDirs : List String
  outputDir : String
  shadcnComponents : List (String × String)
deriving Repr, DecidableEq

/-- User-facing configuration with optional fields (`PluginOptions`). -/
structure PluginOptions where
  baseUrl : String
  registryName : Option String := none
  registryHomepage : Option String := none
  componentsDir : Option String := none
  componentsDirs : Option (List (String × String)) := none
  docsDirs : Option (List String) := none
  outputDir : Option String := none
  shadcnComponents : Option (List (String × String)) := none
deriving Repr, DecidableEq

/-- Fills in the defaults exactly as `resolveOptions` in the source does. -/
def resolveOptions (o : PluginOptions) : ResolvedOptions where
  baseUrl := o.baseUrl
  registryName := o.registryName.getD "components"
  registryHomepage := o.registryHomepage.getD ""
  componentsDir := o.componentsDir.getD "src/registry"
  componentsDirs := o.componentsDirs.getD [("ui", "ui"), ("lib", "lib")]
  docsDirs := o.docsDirs.getD ["content/docs/components"]
  outputDir := o.outputDir.getD "public/r"
  shadcnComponents := o.shadcnComponents.getD []

/-- Built-in shadcn component name table of the source. -/
def DEFAULT_SHADCN_COMPONENTS : List (String × String) :=
  [("button", "button"), ("badge", "badge"), ("input", "input"), ("label", "label"),
   ("select", "select"), ("progress", "progress"), ("card", "card"), ("dialog", "dialog"),
   ("popover", "popover"), ("tooltip", "tooltip"), ("avatar", "avatar"),
   ("checkbox", "checkbox"), ("switch", "switch"), ("tabs", "tabs")]

/-- Disjunction of the `NPM_DEPENDENCY_PATTERNS` regular expressions. -/
def npmPatternTest (s : String) : Bool :=
  s == "lucide-react" || s == "class-variance-authority" || s == "clsx" ||
  s == "tailwind-merge" || s == "motion" || s == "framer-motion" ||
  sw s "@radix-ui/" || s == "date-fns" || s == "zod"

/-- The `EXCLUDED_PACKAGES` set of the source. -/
def EXCLUDED_PACKAGES : List String :=
  ["react", "react-dom", "next", "next/link", "next/image", "next/navigation"]

/-- Classification outcomes of `categorizeImport`. -/
inductive ImpKind where
  | npm
  | shadcn
  | internal
  | ignored
deriving Repr, DecidableEq

/-- Result record of `categorizeImport`. -/
structure ImportCategory where
  kind : ImpKind
  name : String
deriving Repr, DecidableEq

/-- Shallow embedding of `categorizeImport`; the process working directory is
an explicit `cwd` argument. -/
def categorizeImport (importPath filePath cwd : String)
    (shadcnMap : List (String × String)) : ImportCategory :=
  if EXCLUDED_PACKAGES.contains importPath then ⟨.ignored, importPath⟩
  else if !(sw importPath ".") && !(sw importPath "@/") then
    if npmPatternTest importPath then
      let packageName :=
        if sw importPath "@" then String.intercalate "/" ((splitStr importPath '/').take 2)
        else importPath
      ⟨.npm, packageName⟩
    else ⟨.ignored, importPath⟩
  else if sw importPath "@/components/ui/" then
    let componentFile := cutStr importPath "@/components/ui/"
    ⟨.shadcn, jsOrStr (recLookup shadcnMap componentFile) componentFile⟩
  else if sw importPath "@/registry/" then
    ⟨.internal, (splitStr (cutStr importPath "@/registry/") '/').getLastD ""⟩
  else if (sw importPath "./" || sw importPath "../") &&
      scontains (pathRelative cwd (pathResolveIn cwd (pathDirname filePath) importPath))
        "registry/" then
    ⟨.internal, stripCodeExt (pathBasename importPath)⟩
  else if sw importPath "@/lib/" then
    ⟨.internal, stripCodeExt (cutStr importPath "@/lib/")⟩
  else ⟨.ignored, importPath⟩

/-- Consumes one-or-more whitespace characters (regex `\s+`). -/
def ws1 (cs : List Char) : Option (List Char) :=
  match cs with
  | c :: t => if isJsWhite c then some (t.dropWhile isJsWhite) else none
  | [] => none

/-- Consumes zero-or-more whitespace characters (regex `\s*`). -/
def wsAny (cs : List Char) : List Char := cs.dropWhile isJsWhite

/-- Consumes an exact literal. -/
def lit (pat cs : List Char) : Option (List Char) :=
  if leadsWith pat cs then some (cs.drop pat.length) else none

/-- Consumes one-or-more word characters (regex `\w+`). -/
def word1 (cs : List Char) : Option (List Char) :=
  match cs with
  | c :: t => if isWordChar c then some (t.dropWhile isWordChar) else none
  | [] => none

/-- Consumes one import-clause item: a brace group, a star-as binding, or a
bare identifier, as in the import regex of the source. -/
def impItem (cs : List Char) : Option (List Char) :=
  match cs with
  | [] => none
  | c :: t =>
    if c == lbrace then
      match t.dropWhile (fun x => x != rbrace) with
      | _ :: rr => some rr
      | [] => none
    else if c == '*' then do
      let s1 ← ws1 t
      let s2 ← lit ['a', 's'] s1
      let s3 ← ws1 s2
      word1 s3
    else if isWordChar c then some (t.dropWhile isWordChar)
    else none

/-- Consumes as many comma-separated further clause items as possible. -/
def impItems : Nat → List Char → List Char
  | 0, cs => cs
  | f + 1, cs =>
    match wsAny cs with
    | c :: t =>
      if c == ',' then
        match impItem (wsAny t) with
        | some rest => impItems f rest
        | none => cs
      else cs
    | [] => cs

/-- Consumes the optional import clause together with the `from` keyword. -/
def importClauseFrom (cs : List Char) : Option (List Char) := do
  let s1 ← impItem cs
  let s2 := impItems s1.length s1
  let s3 ← ws1 s2
  let s4 ← lit ['f', 'r', 'o', 'm'] s3
  ws1 s4

/-- Consumes a quoted module specifier and returns (specifier, rest). -/
def quoteSpec (cs : List Char) : Option (List Char × List Char) :=
  match cs with
  | c :: t =>
    if c == dquote || c == squote then
      let spec := t.takeWhile (fun x => x != dquote && x != squote)
      if spec.isEmpty then none
      else
        match t.drop spec.length with
        | c2 :: r => if c2 == dquote || c2 == squote then some (spec, r) else none
        | [] => none
    else none
  | [] => none

/-- Anchored match of the import regex of the source at the front of `cs`,
returning the rest of the input and the captured specifier. -/
def importStmtAt (cs : List Char) : Option (List Char × List Char) := do
  let s1 ← lit ['i', 'm', 'p', 'o', 'r', 't'] cs
  let s2 ← ws1 s1
  let s3 := match importClauseFrom s2 with | some r => r | none => s2
  let (spec, rest) ← quoteSpec s3
  pure (rest, spec)

/-- Repeated application of the import regex (`matchAll` semantics), returning
(matched text, captured specifier) pairs in order. -/
def scanImportsGo : Nat → List Char → List (List Char × List Char)
  | 0, _ => []
  | f + 1, cs =>
    match cs with
    | [] => []
    | c :: t =>
      match importStmtAt (c :: t) with
      | some (rest, spec) =>
        ((c :: t).take ((c :: t).length - rest.length), spec) :: scanImportsGo f rest
      | none => scanImportsGo f t

/-- All matches of the import regex in `content`. -/
def importMatches (content : String) : List (String × String) :=
  (scanImportsGo content.data.length content.data).map (fun p => (⟨p.1⟩, ⟨p.2⟩))

/-- Result record of `extractDependenciesFromContent`. -/
structure ExtractedDependencies where
  dependencies : List String
  registryDependencies : List String
  internalDependencies : List String
deriving Repr, DecidableEq

/-- Shallow embedding of `extractDependenciesFromContent`: scans import
statements, classifies each specifier and accumulates three `Set`s. -/
def extractDependenciesFromContent (content filePath cwd : String)
    (options : ResolvedOptions) : ExtractedDependencies :=
  let shadcnMap := recMerge DEFAULT_SHADCN_COMPONENTS options.shadcnComponents
  (importMatches content).foldl
    (fun acc m =>
      if scontains m.1 "import type" then acc
      else
        let r := categorizeImport m.2 filePath cwd shadcnMap
        match r.kind with
        | .npm => { acc with dependencies := setAdd acc.dependencies r.name }
        | .shadcn => { acc with registryDependencies := setAdd acc.registryDependencies r.name }
        | .internal => { acc with internalDependencies := setAdd acc.internalDependencies r.name }
        | .ignored => acc)
    ⟨[], [], []⟩

/-- Shallow embedding of `internalToRegistryDeps`. -/
def internalToRegistryDeps (internalDeps : List String) (baseUrl : String) : List String :=
  internalDeps.map (fun dep => baseUrl ++ "/" ++ dep ++ ".json")

/-- Shallow embedding of `detectShadcnInCode`. -/
def detectShadcnInCode (code : String)
    (shadcnMap : List (String × String) := DEFAULT_SHADCN_COMPONENTS) : List String :=
  let d1 := shadcnMap.foldl
    (fun det p =>
      let pascalName := capFirst p.1
      if scontains code ("<" ++ pascalName) || scontains code ("<" ++ pascalName ++ "/>") then
        setAdd det p.2
      else det)
    []
  ["Button", "Badge", "Input", "Label", "Progress"].foldl
    (fun det comp =>
      if scontains code ("<" ++ comp) then
        match recLookup shadcnMap (lowerStr comp) with
        | some v => if v == "" then det else setAdd det v
        | none => det
      else det)
    d1

/-- Removes line comments: from each `//` to the end of its line. -/
def removeLineCommentsGo : Nat → List Char → List Char
  | 0, cs => cs
  | _ + 1, [] => []
  | f + 1, c :: t =>
    if leadsWith ['/', '/'] (c :: t) then
      removeLineCommentsGo f ((t.drop 1).dropWhile (fun x => x != '\n' && x != '\r'))
    else c :: removeLineCommentsGo f t

/-- Returns the rest of the input after the nearest block-comment close marker. -/
def afterClose : List Char → Option (List Char)
  | [] => none
  | c :: t => if leadsWith ['*', '/'] (c :: t) then some t.tail else afterClose t

/-- Removes block comments non-greedily, modelling the block-comment regex. -/
def removeBlockCommentsGo : Nat → List Char → List Char
  | 0, cs => cs
  | _ + 1, [] => []
  | f + 1, c :: t =>
    if leadsWith ['/', '*'] (c :: t) then
      match afterClose (t.drop 1) with
      | some r => removeBlockCommentsGo f r
      | none => c :: removeBlockCommentsGo f t
    else c :: removeBlockCommentsGo f t

/-- Shallow embedding of `removeComments`: line comments first, then blocks. -/
def removeComments (content : String) : String :=
  let l := removeLineCommentsGo (content.data.length + 1) content.data
  ⟨removeBlockCommentsGo (l.length + 1) l⟩

/-- Consumes one-or-more word characters and returns (word, rest). -/
def wordCap (cs : List Char) : Option (List Char × List Char) :=
  match cs with
  | c :: t =>
    if isWordChar c then
      let w := (c :: t).takeWhile isWordChar
      some (w, (c :: t).drop w.length)
    else none
  | [] => none

/-- Generic `matchAll` driver: tries the anchored matcher at every position,
continuing after each match. -/
def scanAllGo {α : Type} (att : List Char → Option (List Char × α)) :
    Nat → List Char → List α
  | 0, _ => []
  | _ + 1, [] => []
  | f + 1, c :: t =>
    match att (c :: t) with
    | some (rest, a) => a :: scanAllGo att f rest
    | none => scanAllGo att f t

/-- All matches of an anchored matcher over the input. -/
def scanAll {α : Type} (att : List Char → Option (List Char × α)) (cs : List Char) : List α :=
  scanAllGo att (cs.length + 1) cs

/-- First match of an anchored matcher over the input. -/
def firstSome {α : Type} (att : List Char → Option α) : List Char → Option α
  | [] => att []
  | c :: t =>
    match att (c :: t) with
    | some a => some a
    | none => firstSome att t

/-- Anchored matcher for export pattern 1: an export brace list. -/
def att1 (cs : List Char) : Option (List Char × List Char) := do
  let s1 ← lit "export".data cs
  match wsAny s1 with
  | c :: t =>
    if c == lbrace then
      let inner := t.takeWhile (fun x => x != rbrace)
      if inner.isEmpty then none
      else
        match t.drop inner.length with
        | _ :: rr => some (rr, inner)
        | [] => none
    else none
  | [] => none

/-- Anchored matcher for export pattern 2: an exported constant. -/
def att2 (cs : List Char) : Option (List Char × List Char) := do
  let s1 ← lit "export".data cs
  let s2 ← ws1 s1
  let s3 ← lit "const".data s2
  let s4 ← ws1 s3
  let (w, s5) ← wordCap s4
  match wsAny s5 with
  | c :: t => if c == '=' || c == ':' then some (t, w) else none
  | [] => none

/-- Tail of export pattern 3 after the optional `async`. -/
def funcTail (cs : List Char) : Option (List Char × List Char) := do
  let s1 ← lit "function".data cs
  let s2 ← ws1 s1
  let (w, s3) ← wordCap s2
  match wsAny s3 with
  | c :: t => if c == '(' || c == '<' then some (t, w) else none
  | [] => none

/-- Anchored matcher for export pattern 3: an exported function. -/
def att3 (cs : List Char) : Option (List Char × List Char) := do
  let s1 ← lit "export".data cs
  let s2 ← ws1 s1
  match (do
    let a ← lit "async".data s2
    let b ← ws1 a
    funcTail b) with
  | some r => some r
  | none => funcTail s2

/-- Anchored matcher for export pattern 4: an exported class. -/
def att4 (cs : List Char) : Option (List Char × List Char) := do
  let s1 ← lit "export".data cs
  let s2 ← ws1 s1
  let s3 ← lit "class".data s2
  let s4 ← ws1 s3
  let (w, s5) ← wordCap s4
  pure (s5, w)

/-- Anchored matcher for export pattern 5: a default export. -/
def att5 (cs : List Char) : Option (List Char × List Char) := do
  let s1 ← lit "export".data cs
  let s2 ← ws1 s1
  let s3 ← lit "default".data s2
  let s4 ← ws1 s3
  match (do
    let a ← lit "function".data s4
    let b ← ws1 a
    wordCap b) with
  | some (w, r) => some (r, w)
  | none =>
    match wordCap s4 with
    | some (w, r) => some (r, w)
    | none => none

/-- Anchored matcher for export pattern 6: a `displayName` assignment. -/
def att6 (cs : List Char) : Option (List Char × List Char) := do
  let (v, s1) ← wordCap cs
  match s1 with
  | c :: t =>
    if c == '.' then do
      let s2 ← lit "displayName".data t
      match wsAny s2 with
      | e :: t2 =>
        if e == '=' then
          match wsAny t2 with
          | q :: t3 =>
            if q == dquote || q == squote then do
              let (_, s5) ← wordCap t3
              match s5 with
              | q2 :: t4 => if q2 == dquote || q2 == squote then some (t4, v) else none
              | [] => none
            else none
          | [] => none
        else none
      | [] => none
    else none
  | [] => none

/-- Anchored matcher for the `as`-rename regex inside an export list item. -/
def asMatchAt (cs : List Char) : Option (List Char) := do
  let (_, s1) ← wordCap cs
  let s2 ← ws1 s1
  let s3 ← lit "as".data s2
  let s4 ← ws1 s3
  let (w2, _) ← wordCap s4
  pure w2

/-- Names contributed by one export brace list, as in the source. -/
def exportNamesOfBlock (inner : List Char) : List String :=
  ((splitOnCh ',' inner).map (fun item =>
    let trimmed := jsTrim ⟨item⟩
    match firstSome asMatchAt trimmed.data with
    | some g2 => (⟨g2⟩ : String)
    | none => trimmed)).filter (fun name => name != "" && !(sw name "type "))

/-- Word-boundary occurrence test for a word-character name. -/
def containsWordGo (v : List Char) : Option Char → List Char → Bool
  | prev, cs =>
    (leadsWith v cs &&
      (match prev with | none => true | some c => !isWordChar c) &&
      (match cs.drop v.length with | [] => true | c :: _ => !isWordChar c)) ||
    match cs with
    | [] => false
    | c :: t => containsWordGo v (some c) t

/-- Word-boundary occurrence test starting at a string boundary. -/
def containsWord (cs v : List Char) : Bool := containsWordGo v none cs

/-- First alternative of the interpolated `isExported` regex: an export brace
group containing the name at word boundaries. -/
def braceHasWordAt (v : List Char) (cs : List Char) : Bool :=
  match lit "export".data cs with
  | none => false
  | some s1 =>
    match wsAny s1 with
    | c :: t =>
      if c == lbrace then
        let inner := t.takeWhile (fun x => x != rbrace)
        decide (inner.length < t.length) && containsWord inner v
      else false
    | [] => false

/-- Second alternative of the interpolated `isExported` regex: an exported
constant of that name followed by a word boundary. -/
def constWordAt (v : List Char) (cs : List Char) : Bool :=
  match (do
    let a ← lit "export".data cs
    let b ← ws1 a
    let c ← lit "const".data b
    let d ← ws1 c
    lit v d) with
  | some e =>
    match e with
    | [] => true
    | c :: _ => !isWordChar c
  | none => false

/-- Search of the interpolated `isExported` regex over the cleaned content. -/
def anyPosB (p : List Char → Bool) : List Char → Bool
  | [] => p []
  | c :: t => p (c :: t) || anyPosB p t

/-- The `isExported` test used by export pattern 6. -/
def isExportedTest (clean : List Char) (v : List Char) : Bool :=
  anyPosB (braceHasWordAt v) clean || anyPosB (constWordAt v) clean

/-- Candidate export names accumulated by the six patterns of
`extractExportsFromContent`, before the final dedup-and-filter. -/
def exportCandidates (content : String) : List String :=
  let clean := (removeComments content).data
  let e1 := (scanAll att1 clean).foldl (fun acc inner => acc ++ exportNamesOfBlock inner) []
  let e2 := (scanAll att2 clean).foldl (fun acc w => setAdd acc ⟨w⟩) e1
  let e3 := (scanAll att3 clean).foldl (fun acc w => setAdd acc ⟨w⟩) e2
  let e4 := (scanAll att4 clean).foldl (fun acc w => setAdd acc ⟨w⟩) e3
  (scanAll att6 clean).foldl
    (fun acc w =>
      let varName : String := ⟨w⟩
      if acc.contains varName then acc
      else if isExportedTest clean w then acc ++ [varName] else acc)
    e4

/-- Final keep-filter of `extractExportsFromContent`. -/
def exportKeep (name : String) : Bool := !(sw name "type") && letterFirst name

/-- Result record of `extractExportsFromContent`. -/
structure ExtractedExports where
  exports : List String
  defaultExport : Option String
deriving Repr, DecidableEq

/-- Shallow embedding of `extractExportsFromContent`. -/
def extractExportsFromContent (content : String) : ExtractedExports :=
  let clean := (removeComments content).data
  { exports := ((exportCandidates content).foldl setAdd []).filter exportKeep,
    defaultExport := ((scanAll att5 clean).map (fun w => (⟨w⟩ : String))).getLast? }

/-- The JavaScript `s || d` idiom for strings (empty is falsy). -/
def jsOrS (s d : String) : String := if s == "" then d else s

/-- Shallow embedding of `kebabToTitle`. -/
def kebabToTitle (s : String) : String :=
  String.intercalate " " ((splitStr s '-').map capFirst)

/-- Shallow embedding of `kebabToPascal`. -/
def kebabToPascal (s : String) : String :=
  String.join ((splitStr s '-').map capFirst)

/-- Preview example attached to a component (`ComponentPreviewData`). -/
structure ComponentPreviewData where
  component : String
  «example» : String
  code : String
  sourcePath : String
deriving Repr, DecidableEq

/-- Catalog descriptor of one scanned component (`ComponentInfo`). -/
structure ComponentInfo where
  name : String
  title : String
  description : String
  type : String
  sourcePath : String
  targetPath : String
  folder : String
  exports : List String
  dependencies : List String
  registryDependencies : List String
  previews : List ComponentPreviewData
deriving Repr, DecidableEq

/-- Embedded file tuple of an output manifest (`RegistryFile`). -/
structure RegistryFile where
  path : String
  content : String
  type : String
  target : String
deriving Repr, DecidableEq

/-- Output manifest item (`RegistryItem`); fields that the source sets only
conditionally are modelled as `Option`. -/
structure RegistryItem where
  schema : String
  name : String
  type : String
  title : Option String
  description : String
  dependencies : Option (List String)
  registryDependencies : Option (List String)
  files : List RegistryFile
  meta : Option (List (String × String))
deriving Repr, DecidableEq

/-- Top-level registry index document (`Registry`). -/
structure Registry where
  schema : String
  name : String
  homepage : String
  items : List RegistryItem
deriving Repr, DecidableEq

/-- Pure model of the file-system snapshot the generator runs against. -/
structure FSModel where
  readFile : String → String
  readdir : String → Option (List String)
  isFile : String → Bool

/-- Shallow embedding of `scanComponents` over the file-system model. -/
def scanComponents (fsm : FSModel) (options : ResolvedOptions) (cwd : String) :
    List ComponentInfo :=
  let componentsDir := resolveAbs cwd options.componentsDir
  options.componentsDirs.foldl
    (fun components subDir =>
      let dirPath := componentsDir ++ "/" ++ subDir.1
      match fsm.readdir dirPath with
      | none => components
      | some files =>
        files.foldl
          (fun comps file =>
            if file == "index.ts" || file == "index.tsx" then comps
            else if !(endsWithL file.data ".tsx".data) && !(endsWithL file.data ".ts".data) then
              comps
            else
              let filePath := dirPath ++ "/" ++ file
              if !(fsm.isFile filePath) then comps
              else
                let componentName := stripCodeExt file
                let deps := extractDependenciesFromContent (fsm.readFile filePath) filePath cwd options
                comps ++
                  [{ name := componentName,
                     title := kebabToTitle componentName,
                     description := "",
                     type := if subDir.2 == "lib" then "registry:lib" else "registry:ui",
                     sourcePath := pathRelative cwd filePath,
                     targetPath :=
                       if subDir.2 == "lib" then "lib/" ++ componentName ++ ".ts"
                       else "components/ui/" ++ componentName ++ ".tsx",
                     folder := subDir.1,
                     exports := (extractExportsFromContent (fsm.readFile filePath)).exports,
                     dependencies := deps.dependencies,
                     registryDependencies :=
                       deps.registryDependencies ++
                         internalToRegistryDeps deps.internalDependencies options.baseUrl,
                     previews := [] }])
          components)
    []

/-- Shallow embedding of `generateRegistryJson`. -/
def generateRegistryJson (fsm : FSModel) (cwd : String) (components : List ComponentInfo)
    (options : ResolvedOptions) : Registry :=
  { schema := "https://ui.shadcn.com/schema/registry.json",
    name := options.registryName,
    homepage := options.registryHomepage,
    items := components.map (fun component =>
      { schema := "https://ui.shadcn.com/schema/registry-item.json",
        name := component.name,
        type := component.type,
        title := some component.title,
        description := jsOrS component.description (component.title ++ " component"),
        dependencies :=
          if component.dependencies.length > 0 then some component.dependencies else none,
        registryDependencies :=
          if component.registryDependencies.length > 0 then some component.registryDependencies
          else none,
        files := [{ path := component.sourcePath,
                    content := fsm.readFile (resolveAbs cwd component.sourcePath),
                    type := component.type,
                    target := component.targetPath }],
        meta := none }) }

/-- Extracts a bare component name from a same-registry reference URL, as the
body of `collectInternalDeps` does. -/
def stripRefName (baseUrl dep : String) : String :=
  stripJsonExt (stripLeadSlash (cutStr dep baseUrl))

/-- First catalog descriptor with the given name. -/
def findComp (comps : List ComponentInfo) (n : String) : Option ComponentInfo :=
  comps.find? (fun c => c.name == n)

/-- One step of the dependency loop inside `collectInternalDeps`: a failure
(fuel exhaustion) is propagated, otherwise the per-dependency action runs. -/
def collectStep (g : List String → String → Option (List String)) :
    Option (List String) → String → Option (List String) :=
  fun acc dep =>
    match acc with
    | none => none
    | some coll => g coll dep

/-- Fuelled shallow embedding of the recursive `collectInternalDeps`; `none`
signals fuel exhaustion and is proved unreachable for sufficient fuel. -/
def collectGo : Nat → List ComponentInfo → String → String → List String → Option (List String)
  | 0, _, _, _, _ => none
  | fuel + 1, allComponents, baseUrl, componentName, collected =>
    if collected.contains componentName then some collected
    else
      match findComp allComponents componentName with
      | none => some collected
      | some component =>
        component.registryDependencies.foldl
          (collectStep (fun coll dep =>
            if sw dep baseUrl then
              collectGo fuel allComponents baseUrl (stripRefName baseUrl dep) coll
            else some coll))
          (some (collected ++ [componentName]))

/-- Shallow embedding of `collectInternalDeps`: the visited set is an
insertion-ordered list and the fuel is large enough to never run out. -/
def collectInternalDeps (allComponents : List ComponentInfo) (baseUrl : String)
    (componentName : String) (collected : List String) : List String :=
  (collectGo (allComponents.length + 1) allComponents baseUrl componentName collected).getD
    collected

/-- Embedded file tuple built from a descriptor, reading its source text. -/
def mkRegistryFile (fsm : FSModel) (cwd : String) (dep : ComponentInfo) : RegistryFile :=
  { path := dep.sourcePath,
    content := fsm.readFile (resolveAbs cwd dep.sourcePath),
    type := dep.type,
    target := dep.targetPath }

/-- External (non-same-registry) reference entries of one resolved name. -/
def extDepsOf (baseUrl : String) (comps : List ComponentInfo) (n : String) : List String :=
  match findComp comps n with
  | none => []
  | some dep => dep.registryDependencies.filter (fun rd => !(sw rd baseUrl))

/-- Npm dependency entries of one resolved name. -/
def npmDepsOf (comps : List ComponentInfo) (n : String) : List String :=
  match findComp comps n with
  | none => []
  | some dep => dep.dependencies

/-- Per-component manifest item built by the loop body of
`generateComponentJsonFiles`: the closure's files are embedded, npm and
external registry dependencies are aggregated over the closure. -/
def mkComponentItem (fsm : FSModel) (cwd : String) (components : List ComponentInfo)
    (options : ResolvedOptions) (component : ComponentInfo) : RegistryItem :=
  let internalDeps := collectInternalDeps components options.baseUrl component.name []
  let registryFiles :=
    internalDeps.filterMap (fun depName => (findComp components depName).map (mkRegistryFile fsm cwd))
  let allNpmDeps :=
    internalDeps.foldl (fun acc depName => (npmDepsOf components depName).foldl setAdd acc) []
  let externalRegistryDeps :=
    internalDeps.foldl
      (fun acc depName => (extDepsOf options.baseUrl components depName).foldl setAdd acc) []
  { schema := "https://ui.shadcn.com/schema/registry-item.json",
    name := component.name,
    type := component.type,
    title := some component.title,
    description := jsOrS component.description (component.title ++ " component"),
    dependencies := if allNpmDeps.length > 0 then some allNpmDeps else none,
    registryDependencies :=
      if externalRegistryDeps.length > 0 then some externalRegistryDeps else none,
    files := registryFiles,
    meta := none }

/-- JavaScript `Map.set` on an insertion-ordered association list. -/
def mapSet {α : Type} (m : List (String × α)) (k : String) (v : α) : List (String × α) :=
  if m.any (fun p => p.1 == k) then m.map (fun p => if p.1 == k then (k, v) else p)
  else m ++ [(k, v)]

/-- Shallow embedding of `generateComponentJsonFiles`. -/
def generateComponentJsonFiles (fsm : FSModel) (cwd : String)
    (components : List ComponentInfo) (options : ResolvedOptions) :
    List (String × RegistryItem) :=
  components.foldl
    (fun files component =>
      mapSet files (component.name ++ ".json") (mkComponentItem fsm cwd components options component))
    []

/-- Shallow embedding of `generateBundleJson`. -/
def generateBundleJson (fsm : FSModel) (cwd : String) (components : List ComponentInfo)
    (options : ResolvedOptions) : RegistryItem :=
  let bundleComponents :=
    components.filter (fun c => c.type == "registry:ui" || c.type == "registry:lib")
  { schema := "https://ui.shadcn.com/schema/registry-item.json",
    name := options.registryName ++ "-all",
    type := "registry:block",
    title := none,
    description := "All " ++ options.registryName ++ " components and utilities.",
    dependencies :=
      some (bundleComponents.foldl (fun acc c => c.dependencies.foldl setAdd acc) []),
    registryDependencies :=
      some (bundleComponents.foldl
        (fun acc c =>
          (c.registryDependencies.filter (fun dep => !(scontains dep options.baseUrl))).foldl
            setAdd acc)
        []),
    files := bundleComponents.map (mkRegistryFile fsm cwd),
    meta := none }

/-- The fixed `SHADCN_IMPORTS` table of the demo-page generator. -/
def SHADCN_IMPORTS : List (String × String) :=
  [("Label", "label"), ("Button", "button"), ("Input", "input"), ("Badge", "badge"),
   ("Progress", "progress")]

/-- Keeps first occurrences only, modelling the `indexOf`-based unique filter. -/
def dedupKeepFirst (l : List String) : List String := l.foldl setAdd []

/-- Shallow embedding of `generateDemoPage`. -/
def generateDemoPage (component : ComponentInfo) (exampleCode : String)
    (additionalImports : List ComponentInfo) : String :=
  let shadcnImports := SHADCN_IMPORTS.foldl
    (fun acc p =>
      if scontains exampleCode ("<" ++ p.1) then
        acc ++ ["import \x7b " ++ p.1 ++ " \x7d from \"@/components/ui/" ++ p.2 ++ "\";"]
      else acc)
    []
  let importStatement :=
    if component.exports.length > 0 then
      "import \x7b\n  " ++ String.intercalate ",\n  " component.exports ++
        ",\n\x7d from \"@/components/ui/" ++ component.name ++ "\";"
    else
      "import \x7b " ++ kebabToPascal component.name ++ " \x7d from \"@/components/ui/" ++
        component.name ++ "\";"
  let additionalImportStatements := additionalImports.foldl
    (fun acc addComp =>
      if addComp.name != component.name && addComp.exports.length > 0 then
        let usedExports := addComp.exports.filter (fun exp => scontains exampleCode ("<" ++ exp))
        if usedExports.length > 0 then
          acc ++ ["import \x7b\n  " ++ String.intercalate ",\n  " usedExports ++
            ",\n\x7d from \"@/components/ui/" ++ addComp.name ++ "\";"]
        else acc
      else acc)
    []
  let allImports :=
    String.intercalate "\n" (shadcnImports ++ [importStatement] ++ additionalImportStatements)
  allImports ++
    "\n\nexport default function Page() \x7b\n  return (\n    <div className=\"flex min-h-screen items-center justify-center bg-background p-8\">\n      " ++
    exampleCode ++ "\n    </div>\n  );\n\x7d\n"

/-- Additional catalog descriptors pulled into a demo block: every other
descriptor whose name occurs in (or equals) some reference entry of the root. -/
def additionalComponentsFor (component : ComponentInfo)
    (allComponents : List ComponentInfo) : List ComponentInfo :=
  allComponents.filter (fun c =>
    c.name != component.name &&
    component.registryDependencies.any (fun dep => scontains dep c.name || dep == c.name))

/-- Shallow embedding of `generateDemoBlock`. -/
def generateDemoBlock (fsm : FSModel) (cwd : String) (component : ComponentInfo)
    (preview : ComponentPreviewData) (allComponents : List ComponentInfo)
    (options : ResolvedOptions) : RegistryItem :=
  let additionalComponents := additionalComponentsFor component allComponents
  let files :=
    [{ path := "registry/" ++ options.registryName ++ "/" ++ component.name ++ "/page.tsx",
       content := generateDemoPage component preview.code additionalComponents,
       type := "registry:page",
       target := "app/" ++ component.name ++ "/page.tsx" },
     { path := "registry/" ++ options.registryName ++ "/" ++ component.name ++ "/" ++
         component.name ++ ".tsx",
       content := fsm.readFile (resolveAbs cwd component.sourcePath),
       type := "registry:component",
       target := "components/ui/" ++ component.name ++ ".tsx" }] ++
    additionalComponents.map (fun addComp =>
      { path := "registry/" ++ options.registryName ++ "/" ++ component.name ++ "/" ++
          addComp.name ++ ".tsx",
        content := fsm.readFile (resolveAbs cwd addComp.sourcePath),
        type := "registry:component",
        target := "components/ui/" ++ addComp.name ++ ".tsx" })
  let allRegistryDeps := dedupKeepFirst
    ([options.baseUrl ++ "/" ++ component.name ++ ".json"] ++
      component.registryDependencies.filter (fun dep => !(scontains dep options.baseUrl)) ++
      detectShadcnInCode preview.code)
  { schema := "https://ui.shadcn.com/schema/registry-item.json",
    name := component.name ++ "-demo-" ++ preview.«example»,
    type := "registry:block",
    title := none,
    description := jsOrS component.description (component.title ++ " demo"),
    dependencies := some component.dependencies,
    registryDependencies :=
      if allRegistryDeps.length > 0 then some allRegistryDeps else none,
    files := files,
    meta := some [("iframeHeight", "600px")] }

/-- Shallow embedding of `generateAllDemoBlocks`. -/
def generateAllDemoBlocks (fsm : FSModel) (cwd : String) (components : List ComponentInfo)
    (options : ResolvedOptions) : List (String × RegistryItem) :=
  components.foldl
    (fun blocks component =>
      component.previews.foldl
        (fun blocks preview =>
          mapSet blocks (component.name ++ "-demo-" ++ preview.«example» ++ ".json")
            (generateDemoBlock fsm cwd component preview components options))
        blocks)
    []

/-- Characters before the first occurrence of `pat`, or `none` when absent. -/
def beforeSub : List Char → List Char → Option (List Char)
  | [], pat => if leadsWith pat [] then some [] else none
  | c :: t, pat =>
    if leadsWith pat (c :: t) then some []
    else (beforeSub t pat).map (fun r => c :: r)

/-- Frontmatter block of an MDX file, per the anchored frontmatter regex. -/
def frontmatterOf (content : String) : Option String :=
  match lit "---\n".data content.data with
  | none => none
  | some rest => (beforeSub rest "\n---".data).map (fun cs => ⟨cs⟩)

/-- Anchored match of the `description:` regex, with the backtracking edge
case where only whitespace follows the colon. -/
def descAt (cs : List Char) : Option (List Char) :=
  match lit "description:".data cs with
  | none => none
  | some s1 =>
    let s2 := s1.dropWhile isJsWhite
    match s2 with
    | _ :: _ => some (s2.takeWhile (fun c => c != '\n' && c != '\r'))
    | [] =>
      match ((s1.takeWhile isJsWhite).filter (fun c => c != '\n' && c != '\r')).getLast? with
      | some c => some [c]
      | none => none

/-- Strips one leading and one trailing quote character, per the source regex. -/
def stripOuterQuotes (s : String) : String :=
  let s1 : List Char :=
    match s.data with
    | c :: t => if c == dquote || c == squote then t else s.data
    | [] => []
  match s1.getLast? with
  | some c => if c == dquote || c == squote then ⟨s1.dropLast⟩ else ⟨s1⟩
  | none => ⟨s1⟩

/-- Anchored match of one `ComponentPreview` opening tag; the capture keeps
both the tag text and the rest of the content after it. -/
def previewTagAt (cs : List Char) : Option (List Char × (List Char × List Char)) :=
  match lit "<ComponentPreview".data cs with
  | none => none
  | some s1 =>
    let inner := s1.takeWhile (fun c => c != '>')
    match s1.drop inner.length with
    | _ :: r => some (r, ("<ComponentPreview".data ++ inner ++ ['>'], r))
    | [] => none

/-- Anchored match of a quoted attribute value after the given attribute text. -/
def attrAt (attr : List Char) (cs : List Char) : Option (List Char) :=
  match lit attr cs with
  | none => none
  | some s1 =>
    match s1 with
    | q :: t =>
      if q == dquote || q == squote then
        let v := t.takeWhile (fun c => c != dquote && c != squote)
        if v.isEmpty then none
        else
          match t.drop v.length with
          | q2 :: _ => if q2 == dquote || q2 == squote then some v else none
          | [] => none
      else none
    | [] => none

/-- Updates the descriptor found from one MDX documentation file: frontmatter
description plus all matching `ComponentPreview` examples. -/
def scanMdxFile (content componentName filePath : String) (comp : ComponentInfo) :
    ComponentInfo :=
  let comp1 :=
    match frontmatterOf content with
    | some fm =>
      match firstSome descAt fm.data with
      | some d => { comp with description := stripOuterQuotes (jsTrim ⟨d⟩) }
      | none => comp
    | none => comp
  (scanAll previewTagAt content.data).foldl
    (fun c m =>
      let tag := m.1
      match firstSome (attrAt "component=".data) tag,
            firstSome (attrAt "example=".data) tag with
      | some compVal, some exVal =>
        if (⟨compVal⟩ : String) == componentName then
          match beforeSub m.2 "</ComponentPreview>".data with
          | some codeRaw =>
            let code := jsTrim ⟨codeRaw⟩
            if code == "" then c
            else
              { c with previews := c.previews ++
                  [{ component := componentName, «example» := ⟨exVal⟩, code := code,
                     sourcePath := filePath }] }
          | none => c
        else c
      | _, _ => c)
    comp1

/-- Replaces the first descriptor with the given name, modelling the in-place
mutation of the found catalog entry. -/
def updateFirst (comps : List ComponentInfo) (n : String) (f : ComponentInfo → ComponentInfo) :
    List ComponentInfo :=
  match comps with
  | [] => []
  | c :: t => if c.name == n then f c :: t else c :: updateFirst t n f

/-- Shallow embedding of `scanMdxFiles`, returning the updated catalog. -/
def scanMdxFiles (fsm : FSModel) (options : ResolvedOptions) (cwd : String)
    (components : List ComponentInfo) : List ComponentInfo :=
  options.docsDirs.foldl
    (fun comps d =>
      let dir := resolveAbs cwd d
      match fsm.readdir dir with
      | none => comps
      | some files =>
        files.foldl
          (fun comps file =>
            if !(endsWithL file.data ".mdx".data) then comps
            else
              let filePath := dir ++ "/" ++ file
              let componentName := cutStr file ".mdx"
              updateFirst comps componentName
                (scanMdxFile (fsm.readFile filePath) componentName filePath))
          comps)
    components

/-- Every output document produced by one run of `buildRegistry`, in order. -/
structure BuildOutputs where
  registry : Registry
  componentFiles : List (String × RegistryItem)
  bundle : RegistryItem
  blocks : List (String × RegistryItem)
deriving Repr, DecidableEq

/-- Pure composition of the `buildRegistry` pipeline over the file-system
model: catalog scan, MDX merge, then the four manifest families. -/
def buildOutputs (fsm : FSModel) (o : PluginOptions) (cwd : String) : BuildOutputs :=
  let resolved := resolveOptions o
  let components := scanMdxFiles fsm resolved cwd (scanComponents fsm resolved cwd)
  { registry := generateRegistryJson fsm cwd components resolved,
    componentFiles := generateComponentJsonFiles fsm cwd components resolved,
    bundle := generateBundleJson fsm cwd components resolved,
    blocks := generateAllDemoBlocks fsm cwd components resolved }

/-- Reachability in the internal reference graph: the target is reached from a
resolvable name through same-registry reference URLs of resolvable
descriptors, exactly the graph that `collectInternalDeps` walks. -/
inductive Reaches (comps : List ComponentInfo) (baseUrl : String) : String → String → Prop
  | refl (n : String) (c : ComponentInfo) (h : findComp comps n = some c) :
      Reaches comps baseUrl n n
  | step (n m : String) (c : ComponentInfo) (dep : String)
      (h : findComp comps n = some c) (hd : dep ∈ c.registryDependencies)
      (hb : sw dep baseUrl = true)
      (hr : Reaches comps baseUrl (stripRefName baseUrl dep) m) :
      Reaches comps baseUrl n m

/-- Closedness of a collected set at one name: every resolvable same-registry
reference of that name is also in the set. -/
def closedAt (comps : List ComponentInfo) (baseUrl : String) (C : List String)
    (x : String) : Prop :=
  ∀ c dep, findComp comps x = some c → dep ∈ c.registryDependencies →
    sw dep baseUrl = true → (∃ c', findComp comps (stripRefName baseUrl dep) = some c') →
    stripRefName baseUrl dep ∈ C

/-- Number of catalog names not yet collected; the termination measure of
`collectInternalDeps`. -/
def freshMeasure (comps : List ComponentInfo) (coll : List String) : Nat :=
  ((comps.map (fun c => c.name)).toFinset \ coll.toFinset).card

/-- Base URL used by the concrete example catalogs. -/
def exBase : String := "https://x.com/r"

/-- Component `a` of the mutual-cycle catalog: it references `b`. -/
def compA : ComponentInfo :=
  { name := "a", title := "A", description := "", type := "registry:ui",
    sourcePath := "reg/a.tsx", targetPath := "components/ui/a.tsx", folder := "ui",
    exports := ["A"], dependencies := [],
    registryDependencies := ["https://x.com/r/b.json"], previews := [] }

/-- Component `b` of the mutual-cycle catalog: it references `a` back. -/
def compB : ComponentInfo :=
  { name := "b", title := "B", description := "", type := "registry:ui",
    sourcePath := "reg/b.tsx", targetPath := "components/ui/b.tsx", folder := "ui",
    exports := ["B"], dependencies := [],
    registryDependencies := ["https://x.com/r/a.json"], previews := [] }

/-- The mutual-cycle catalog. -/
def cycCatalog : List ComponentInfo := [compA, compB]

/-- File system for the concrete catalogs: distinct contents for each source. -/
def cycFS : FSModel where
  readFile := fun p => if p == "/p/reg/a.tsx" then "AAA" else if p == "/p/reg/b.tsx" then "BBB" else ""
  readdir := fun _ => none
  isFile := fun _ => true

/-- Options used with the concrete example catalogs. -/
def exOptions : ResolvedOptions := resolveOptions { baseUrl := exBase }

/-- Root of the name-shadowing catalog: it references the external catalog
name `button` and the internal component `button` at the same time. -/
def shadowRoot : ComponentInfo :=
  { name := "root", title := "Root", description := "", type := "registry:ui",
    sourcePath := "reg/root.tsx", targetPath := "components/ui/root.tsx", folder := "ui",
    exports := ["Root"], dependencies := [],
    registryDependencies := ["button", "https://x.com/r/button.json"], previews := [] }

/-- Internal component named `button`, shadowing the external catalog name. -/
def shadowButton : ComponentInfo :=
  { name := "button", title := "Button", description := "", type := "registry:ui",
    sourcePath := "reg/button.tsx", targetPath := "components/ui/button.tsx", folder := "ui",
    exports := ["Button"], dependencies := [],
    registryDependencies := [], previews := [] }

/-- The name-shadowing catalog. -/
def shadowCatalog : List ComponentInfo := [shadowRoot, shadowButton]

/-- Component whose reference list names a component absent from the catalog. -/
def danglingComp : ComponentInfo :=
  { name := "a", title := "A", description := "", type := "registry:ui",
    sourcePath := "reg/a.tsx", targetPath := "components/ui/a.tsx", folder := "ui",
    exports := ["A"], dependencies := [],
    registryDependencies := ["https://x.com/r/ghost.json"], previews := [] }

/-- Catalog with one unresolved internal reference. -/
def danglingCatalog : List ComponentInfo := [danglingComp]

/-- Preview whose example code references no exported symbol of any
additional component. -/
def plainPreview : ComponentPreviewData :=
  { component := "root", «example» := "preview", code := "<div />", sourcePath := "doc.mdx" }

/-- A file-system model with empty answers everywhere. -/
def fsW1 : FSModel where
  readFile := fun _ => ""
  readdir := fun _ => none
  isFile := fun _ => false

/-- A file-system model written differently from `fsW1` but agreeing with it
pointwise on every query. -/
def fsW2 : FSModel where
  readFile := fun p => if p == p then "" else "?"
  readdir := fun d => if d == d then none else some []
  isFile := fun f => f != f

/-- Membership in a `Set` after one insertion. -/
theorem mem_setAdd {l : List String} {x y : String} : y ∈ setAdd l x ↔ y ∈ l ∨ y = x := by
  unfold setAdd
  split
  · next h =>
    constructor
    · exact fun hy => Or.inl hy
    · rintro (hy | rfl)
      · exact hy
      · simpa using h
  · simp [List.mem_append]

/-- Insertion into a duplicate-free `Set` keeps it duplicate-free. -/
theorem nodup_setAdd {l : List String} {x : String} (h : l.Nodup) : (setAdd l x).Nodup := by
  unfold setAdd
  split
  · exact h
  · next hc =>
    simp only [List.nodup_append, List.nodup_cons]
    refine ⟨h, by simp, ?_⟩
    intro a ha hax
    simp only [List.mem_singleton] at hax
    subst hax
    simp at hc
    exact hc ha

/-- Membership in a fold of `Set` insertions. -/
theorem mem_foldl_setAdd {l : List String} {init : List String} {y : String} :
    y ∈ l.foldl setAdd init ↔ y ∈ init ∨ y ∈ l := by
  induction l generalizing init with
  | nil => simp
  | cons a t ih =>
    simp only [List.foldl_cons, ih, mem_setAdd, List.mem_cons]
    tauto

/-- A fold of `Set` insertions keeps the accumulator duplicate-free. -/
theorem nodup_foldl_setAdd {l : List String} {init : List String} (h : init.Nodup) :
    (l.foldl setAdd init).Nodup := by
  induction l generalizing init with
  | nil => exact h
  | cons a t ih => exact ih (nodup_setAdd h)

/-- Membership in a nested union fold of `Set` insertions. -/
theorem mem_foldl_setAddU {f : String → List String} {L : List String}
    {init : List String} {y : String} :
    y ∈ L.foldl (fun acc n => (f n).foldl setAdd acc) init ↔
      y ∈ init ∨ ∃ n ∈ L, y ∈ f n := by
  induction L generalizing init with
  | nil => simp
  | cons a t ih =>
    simp only [List.foldl_cons, ih, mem_foldl_setAdd, List.mem_cons]
    constructor
    · rintro ((hy | hy) | ⟨n, hn, hy⟩)
      · exact Or.inl hy
      · exact Or.inr ⟨a, Or.inl rfl, hy⟩
      · exact Or.inr ⟨n, Or.inr hn, hy⟩
    · rintro (hy | ⟨n, hn | hn, hy⟩)
      · exact Or.inl (Or.inl hy)
      · subst hn; exact Or.inl (Or.inr hy)
      · exact Or.inr ⟨n, hn, hy⟩

/-- A nested union fold of `Set` insertions keeps the accumulator
duplicate-free. -/
theorem nodup_foldl_setAddU {f : String → List String} {L : List String}
    {init : List String} (h : init.Nodup) :
    (L.foldl (fun acc n => (f n).foldl setAdd acc) init).Nodup := by
  induction L generalizing init with
  | nil => exact h
  | cons a t ih => exact ih (nodup_foldl_setAdd h)

/-- Membership through the conditional `Option` wrapping of dependency lists. -/
theorem mem_optList {l : List String} {y : String} :
    y ∈ (if l.length > 0 then some l else none).getD [] ↔ y ∈ l := by
  split
  · simp
  · next h =>
    have : l = [] := List.eq_nil_of_length_eq_zero (by omega)
    simp [this]

/-- A fold of collect steps over a failed accumulator stays failed. -/
theorem foldl_collectStep_none (g : List String → String → Option (List String))
    (l : List String) : l.foldl (collectStep g) none = none := by
  induction l with
  | nil => rfl
  | cons a t ih => simpa [collectStep] using ih

/-- A successful fold of collect steps only appends to the accumulator,
provided each step only appends. -/
theorem foldl_collectStep_ext {g : List String → String → Option (List String)}
    (hg : ∀ c d C', g c d = some C' → ∃ e, C' = c ++ e) :
    ∀ (l : List String) (c0 C : List String),
      l.foldl (collectStep g) (some c0) = some C → ∃ e, C = c0 ++ e := by
  intro l
  induction l with
  | nil =>
    intro c0 C h
    cases h
    exact ⟨[], (List.append_nil _).symm⟩
  | cons d t ih =>
    intro c0 C h
    simp only [List.foldl_cons, collectStep] at h
    cases hg0 : g c0 d with
    | none => rw [hg0, foldl_collectStep_none] at h; cases h
    | some c1 =>
      rw [hg0] at h
      obtain ⟨e1, rfl⟩ := ih c1 C h
      obtain ⟨e0, rfl⟩ := hg c0 d c1 hg0
      exact ⟨e0 ++ e1, by simp⟩

/-- Origin of the members of a successful fold of collect steps: already in
the accumulator, or produced by the step of some processed element. -/
theorem foldl_collectStep_mem {g : List String → String → Option (List String)}
    {R : String → String → Prop}
    (hg : ∀ c d C', g c d = some C' → ∀ x ∈ C', x ∈ c ∨ R d x) :
    ∀ (l : List String) (c0 C : List String),
      l.foldl (collectStep g) (some c0) = some C → ∀ x ∈ C, x ∈ c0 ∨ ∃ d ∈ l, R d x := by
  intro l
  induction l with
  | nil =>
    intro c0 C h x hx
    cases h
    exact Or.inl hx
  | cons d t ih =>
    intro c0 C h x hx
    simp only [List.foldl_cons, collectStep] at h
    cases hg0 : g c0 d with
    | none => rw [hg0, foldl_collectStep_none] at h; cases h
    | some c1 =>
      rw [hg0] at h
      rcases ih c1 C h x hx with hx1 | ⟨d', hd', hr⟩
      · rcases hg c0 d c1 hg0 x hx1 with hx0 | hr
        · exact Or.inl hx0
        · exact Or.inr ⟨d, List.mem_cons_self d t, hr⟩
      · exact Or.inr ⟨d', List.mem_cons_of_mem d hd', hr⟩

/-- Decomposition of a successful fold of collect steps at one processed
element `d`: some intermediate accumulator extends the initial one, the step
at `d` succeeds from it, and the final result extends the step's output. -/
theorem foldl_collectStep_at {g : List String → String → Option (List String)}
    (hg : ∀ c d C', g c d = some C' → ∃ e, C' = c ++ e) :
    ∀ (l : List String) (c0 C : List String) (d : String), d ∈ l →
      l.foldl (collectStep g) (some c0) = some C →
      ∃ c1 C2, (∃ e, c1 = c0 ++ e) ∧ g c1 d = some C2 ∧ ∃ e2, C = C2 ++ e2 := by
  intro l
  induction l with
  | nil => intro c0 C d hd; cases hd
  | cons a t ih =>
    intro c0 C d hd h
    simp only [List.foldl_cons, collectStep] at h
    cases hg0 : g c0 a with
    | none => rw [hg0, foldl_collectStep_none] at h; cases h
    | some c1 =>
      rw [hg0] at h
      rcases List.mem_cons.mp hd with rfl | hdt
      · exact ⟨c0, c1, ⟨[], by simp⟩, hg0, foldl_collectStep_ext hg t c1 C h⟩
      · obtain ⟨c2, C2, ⟨e, rfl⟩, hstep, hext⟩ := ih c1 C d hdt h
        obtain ⟨e0, rfl⟩ := hg c0 a c1 hg0
        exact ⟨(c0 ++ e0) ++ e, C2, ⟨e0 ++ e, by simp⟩, hstep, hext⟩

/-- Closedness of every newly collected member, transported through a fold of
collect steps. -/
theorem foldl_collectStep_newclosed {comps : List ComponentInfo} {b : String}
    {g : List String → String → Option (List String)}
    (hgext : ∀ c d C', g c d = some C' → ∃ e, C' = c ++ e)
    (hgcl : ∀ c d C', g c d = some C' → ∀ x ∈ C', x ∉ c → closedAt comps b C' x) :
    ∀ (l : List String) (c0 C : List String),
      l.foldl (collectStep g) (some c0) = some C →
      ∀ x ∈ C, x ∉ c0 → closedAt comps b C x := by
  intro l
  induction l with
  | nil =>
    intro c0 C h x hx hnx
    cases h
    exact absurd hx hnx
  | cons d t ih =>
    intro c0 C h x hx hnx
    simp only [List.foldl_cons, collectStep] at h
    cases hg0 : g c0 d with
    | none => rw [hg0, foldl_collectStep_none] at h; cases h
    | some c1 =>
      rw [hg0] at h
      by_cases hx1 : x ∈ c1
      · have hcl := hgcl c0 d c1 hg0 x hx1 hnx
        obtain ⟨e, rfl⟩ := foldl_collectStep_ext hgext t c1 C h
        intro c dep h1 h2 h3 h4
        exact List.mem_append_left _ (hcl c dep h1 h2 h3 h4)
      · exact ih c1 C h x hx hx1

/-- A fold of collect steps keeps the accumulator duplicate-free, provided
each step does. -/
theorem foldl_collectStep_nodup {g : List String → String → Option (List String)}
    (hg : ∀ c d C', g c d = some C' → c.Nodup → C'.Nodup) :
    ∀ (l : List String) (c0 C : List String),
      l.foldl (collectStep g) (some c0) = some C → c0.Nodup → C.Nodup := by
  intro l
  induction l with
  | nil => intro c0 C h hn; cases h; exact hn
  | cons d t ih =>
    intro c0 C h hn
    simp only [List.foldl_cons, collectStep] at h
    cases hg0 : g c0 d with
    | none => rw [hg0, foldl_collectStep_none] at h; cases h
    | some c1 =>
      rw [hg0] at h
      exact ih c1 C h (hg c0 d c1 hg0 hn)

/-- A successful fold of collect steps remains successful when every step
result is preserved by a second step function. -/
theorem foldl_collectStep_congr {g g' : List String → String → Option (List String)}
    (hgg : ∀ c d C', g c d = some C' → g' c d = some C') :
    ∀ (l : List String) (c0 C : List String),
      l.foldl (collectStep g) (some c0) = some C →
      l.foldl (collectStep g') (some c0) = some C := by
  intro l
  induction l with
  | nil => intro c0 C h; exact h
  | cons d t ih =>
    intro c0 C h
    simp only [List.foldl_cons, collectStep] at h ⊢
    cases hg0 : g c0 d with
    | none => rw [hg0, foldl_collectStep_none] at h; cases h
    | some c1 =>
      rw [hg0] at h
      rw [hgg c0 d c1 hg0]
      exact ih c1 C h

/-- A fold of collect steps succeeds when every step succeeds below the given
measure bound and steps only append (so the measure never grows). -/
theorem foldl_collectStep_some {g : List String → String → Option (List String)}
    (μ : List String → Nat) (F : Nat)
    (hgext : ∀ c d C', g c d = some C' → ∃ e, C' = c ++ e)
    (hμ : ∀ c e, μ (c ++ e) ≤ μ c)
    (hgs : ∀ c d, μ c < F → (g c d).isSome) :
    ∀ (l : List String) (c0 : List String), μ c0 < F →
      (l.foldl (collectStep g) (some c0)).isSome := by
  intro l
  induction l with
  | nil => intro c0 _; simp
  | cons d t ih =>
    intro c0 hc0
    simp only [List.foldl_cons, collectStep]
    cases hg0 : g c0 d with
    | none =>
      have := hgs c0 d hc0
      rw [hg0] at this
      cases this
    | some c1 =>
      obtain ⟨e, rfl⟩ := hgext c0 d c1 hg0
      exact ih (c0 ++ e) (lt_of_le_of_lt (hμ c0 e) hc0)

/-- A reachability derivation starts at a resolvable name. -/
theorem reaches_src {comps : List ComponentInfo} {b k m : String}
    (h : Reaches comps b k m) : ∃ c, findComp comps k = some c := by
  cases h with
  | refl _ c hc => exact ⟨c, hc⟩
  | step _ _ c dep hc _ _ _ => exact ⟨c, hc⟩

/-- A reachability derivation ends at a resolvable name. -/
theorem reaches_tgt {comps : List ComponentInfo} {b k m : String}
    (h : Reaches comps b k m) : ∃ c, findComp comps m = some c := by
  induction h with
  | refl _ c hc => exact ⟨c, hc⟩
  | step _ _ _ _ _ _ _ _ ih => exact ih

/-- A successful `collectGo` call only appends to the visited set. -/
theorem collectGo_ext :
    ∀ (fuel : Nat) (comps : List ComponentInfo) (b n : String) (coll C : List String),
      collectGo fuel comps b n coll = some C → ∃ e, C = coll ++ e := by
  intro fuel
  induction fuel with
  | zero => intro comps b n coll C h; cases h
  | succ fuel ih =>
    intro comps b n coll C h
    rw [collectGo] at h
    by_cases hc : coll.contains n
    · rw [if_pos hc] at h
      cases h
      exact ⟨[], by simp⟩
    · rw [if_neg hc] at h
      cases hf : findComp comps n with
      | none =>
        rw [hf] at h
        cases h
        exact ⟨[], by simp⟩
      | some component =>
        rw [hf] at h
        have hg : ∀ c d C', (if sw d b then collectGo fuel comps b (stripRefName b d) c
            else some c) = some C' → ∃ e, C' = c ++ e := by
          intro c d C' hcd
          by_cases hswd : sw d b
          · rw [if_pos hswd] at hcd
            exact ih comps b (stripRefName b d) c C' hcd
          · rw [if_neg hswd] at hcd
            cases hcd
            exact ⟨[], by simp⟩
        obtain ⟨e, rfl⟩ := foldl_collectStep_ext hg _ _ _ h
        exact ⟨[n] ++ e, by simp⟩

/-- A successful `collectGo` call keeps the visited set duplicate-free. -/
theorem collectGo_nodup :
    ∀ (fuel : Nat) (comps : List ComponentInfo) (b n : String) (coll C : List String),
      collectGo fuel comps b n coll = some C → coll.Nodup → C.Nodup := by
  intro fuel
  induction fuel with
  | zero => intro comps b n coll C h; cases h
  | succ fuel ih =>
    intro comps b n coll C h hn
    rw [collectGo] at h
    by_cases hc : coll.contains n
    · rw [if_pos hc] at h; cases h; exact hn
    · rw [if_neg hc] at h
      cases hf : findComp comps n with
      | none => rw [hf] at h; cases h; exact hn
      | some component =>
        rw [hf] at h
        have hg : ∀ c d C', (if sw d b then collectGo fuel comps b (stripRefName b d) c
            else some c) = some C' → c.Nodup → C'.Nodup := by
          intro c d C' hcd hcn
          by_cases hswd : sw d b
          · rw [if_pos hswd] at hcd
            exact ih comps b (stripRefName b d) c C' hcd hcn
          · rw [if_neg hswd] at hcd
            cases hcd
            exact hcn
        refine foldl_collectStep_nodup hg _ _ _ h ?_
        simp only [List.nodup_append, List.nodup_cons, List.nodup_nil]
        refine ⟨hn, by simp, ?_⟩
        intro a ha hax
        simp only [List.mem_singleton] at hax
        subst hax
        simp at hc
        exact hc ha

/-- Soundness: every member of a successful `collectGo` result was already
visited or is reachable from the starting name. -/
theorem collectGo_mem :
    ∀ (fuel : Nat) (comps : List ComponentInfo) (b n : String) (coll C : List String),
      collectGo fuel comps b n coll = some C →
      ∀ x ∈ C, x ∈ coll ∨ Reaches comps b n x := by
  intro fuel
  induction fuel with
  | zero => intro comps b n coll C h; cases h
  | succ fuel ih =>
    intro comps b n coll C h x hx
    rw [collectGo] at h
    by_cases hc : coll.contains n
    · rw [if_pos hc] at h; cases h; exact Or.inl hx
    · rw [if_neg hc] at h
      cases hf : findComp comps n with
      | none => rw [hf] at h; cases h; exact Or.inl hx
      | some component =>
        rw [hf] at h
        have hg : ∀ c d C', (if sw d b then collectGo fuel comps b (stripRefName b d) c
            else some c) = some C' → ∀ y ∈ C', y ∈ c ∨
              (sw d b = true ∧ Reaches comps b (stripRefName b d) y) := by
          intro c d C' hcd y hy
          by_cases hswd : sw d b
          · rw [if_pos hswd] at hcd
            rcases ih comps b (stripRefName b d) c C' hcd y hy with h0 | hr
            · exact Or.inl h0
            · exact Or.inr ⟨hswd, hr⟩
          · rw [if_neg hswd] at hcd
            cases hcd
            exact Or.inl hy
        rcases foldl_collectStep_mem hg _ _ _ h x hx with h0 | ⟨d, hd, hswd, hr⟩
        · rcases List.mem_append.mp h0 with h1 | h1
          · exact Or.inl h1
          · simp only [List.mem_singleton] at h1
            subst h1
            exact Or.inr (Reaches.refl x component hf)
        · exact Or.inr (Reaches.step n x component d hf hd hswd hr)

/-- A resolvable starting name always enters the result. -/
theorem collectGo_enters :
    ∀ (fuel : Nat) (comps : List ComponentInfo) (b n : String) (coll C : List String)
      (c : ComponentInfo),
      collectGo fuel comps b n coll = some C → findComp comps n = some c → n ∈ C := by
  intro fuel comps b n coll C c h hc
  cases fuel with
  | zero => cases h
  | succ fuel =>
    rw [collectGo] at h
    by_cases hcn : coll.contains n
    · rw [if_pos hcn] at h
      cases h
      simpa using hcn
    · rw [if_neg hcn] at h
      rw [hc] at h
      have hg : ∀ c' d C', (if sw d b then collectGo fuel comps b (stripRefName b d) c'
          else some c') = some C' → ∃ e, C' = c' ++ e := by
        intro c' d C' hcd
        by_cases hswd : sw d b
        · rw [if_pos hswd] at hcd
          exact collectGo_ext fuel comps b (stripRefName b d) c' C' hcd
        · rw [if_neg hswd] at hcd
          cases hcd
          exact ⟨[], by simp⟩
      obtain ⟨e, rfl⟩ := foldl_collectStep_ext hg _ _ _ h
      simp

/-- Every name the call newly collects is closed in the final result: its
resolvable same-registry references are collected as well. -/
theorem collectGo_closed :
    ∀ (fuel : Nat) (comps : List ComponentInfo) (b n : String) (coll C : List String),
      collectGo fuel comps b n coll = some C →
      ∀ x ∈ C, x ∉ coll → closedAt comps b C x := by
  intro fuel
  induction fuel with
  | zero => intro comps b n coll C h; cases h
  | succ fuel ih =>
    intro comps b n coll C h x hx hnx
    rw [collectGo] at h
    by_cases hc : coll.contains n
    · rw [if_pos hc] at h; cases h; exact absurd hx hnx
    · rw [if_neg hc] at h
      cases hf : findComp comps n with
      | none => rw [hf] at h; cases h; exact absurd hx hnx
      | some component =>
        rw [hf] at h
        have hgext : ∀ c d C', (if sw d b then collectGo fuel comps b (stripRefName b d) c
            else some c) = some C' → ∃ e, C' = c ++ e := by
          intro c d C' hcd
          by_cases hswd : sw d b
          · rw [if_pos hswd] at hcd
            exact collectGo_ext fuel comps b (stripRefName b d) c C' hcd
          · rw [if_neg hswd] at hcd
            cases hcd
            exact ⟨[], by simp⟩
        by_cases hxn : x = n
        · subst hxn
          intro c dep h1 h2 h3 h4
          rw [hf] at h1
          cases h1
          obtain ⟨c1, C2, _, hstep, ⟨e2, rfl⟩⟩ := foldl_collectStep_at hgext _ _ _ dep h2 h
          rw [if_pos h3] at hstep
          obtain ⟨c', hc'⟩ := h4
          exact List.mem_append_left _
            (collectGo_enters fuel comps b (stripRefName b dep) c1 C2 c' hstep hc')
        · have hx0 : x ∉ coll ++ [n] := by
            intro hmem
            rcases List.mem_append.mp hmem with h1 | h1
            · exact hnx h1
            · simp only [List.mem_singleton] at h1
              exact hxn h1
          have hgcl : ∀ c d C', (if sw d b then collectGo fuel comps b (stripRefName b d) c
              else some c) = some C' → ∀ y ∈ C', y ∉ c → closedAt comps b C' y := by
            intro c d C' hcd y hy hny
            by_cases hswd : sw d b
            · rw [if_pos hswd] at hcd
              exact ih comps b (stripRefName b d) c C' hcd y hy hny
            · rw [if_neg hswd] at hcd
              cases hcd
              exact absurd hy hny
          exact foldl_collectStep_newclosed hgext hgcl _ _ _ h x hx hx0

/-- Completeness: if a collected name reaches a target, the target is
collected too, unless some already-visited name reaches it. -/
theorem collectGo_complete {comps : List ComponentInfo} {b : String} :
    ∀ (x m : String), Reaches comps b x m →
      ∀ (fuel : Nat) (n : String) (coll C : List String),
        collectGo fuel comps b n coll = some C → x ∈ C →
        m ∈ C ∨ ∃ y ∈ coll, Reaches comps b y m := by
  intro x m hr
  induction hr with
  | refl n' c hc =>
    intro fuel n coll C hcall hx
    exact Or.inl hx
  | step x' m' c dep hc hd hb hr' ih =>
    intro fuel n coll C hcall hx
    by_cases hxc : x' ∈ coll
    · exact Or.inr ⟨x', hxc, Reaches.step x' m' c dep hc hd hb hr'⟩
    · obtain ⟨c', hc'⟩ := reaches_src hr'
      have hk : stripRefName b dep ∈ C :=
        collectGo_closed fuel comps b n coll C hcall x' hx hxc c dep hc hd hb ⟨c', hc'⟩
      exact ih fuel n coll C hcall hk

/-- Fuel monotonicity: a successful `collectGo` result is stable under more
fuel. -/
theorem collectGo_mono :
    ∀ (fuel fuel' : Nat), fuel ≤ fuel' →
      ∀ (comps : List ComponentInfo) (b n : String) (coll C : List String),
        collectGo fuel comps b n coll = some C → collectGo fuel' comps b n coll = some C := by
  intro fuel
  induction fuel with
  | zero => intro fuel' _ comps b n coll C h; cases h
  | succ fuel ih =>
    intro fuel' hle comps b n coll C h
    cases fuel' with
    | zero => omega
    | succ fuel'' =>
      have hle'' : fuel ≤ fuel'' := by omega
      rw [collectGo] at h ⊢
      by_cases hc : coll.contains n
      · rw [if_pos hc] at h ⊢; exact h
      · rw [if_neg hc] at h ⊢
        cases hf : findComp comps n with
        | none => rw [hf] at h; exact h
        | some component =>
          rw [hf] at h
          refine foldl_collectStep_congr ?_ _ _ _ h
          intro c d C' hcd
          by_cases hswd : sw d b
          · rw [if_pos hswd] at hcd ⊢
            exact ih fuel'' hle'' comps b (stripRefName b d) c C' hcd
          · rw [if_neg hswd] at hcd ⊢
            exact hcd

/-- The fresh-name measure never grows when the visited set is extended. -/
theorem freshMeasure_append_le (comps : List ComponentInfo) (c e : List String) :
    freshMeasure comps (c ++ e) ≤ freshMeasure comps c := by
  apply Finset.card_le_card
  apply Finset.sdiff_subset_sdiff (Finset.Subset.refl _)
  intro x hx
  simp only [List.mem_toFinset] at hx ⊢
  exact List.mem_append_left _ hx

/-- The fresh-name measure strictly drops when a fresh catalog name is added. -/
theorem freshMeasure_add_lt (comps : List ComponentInfo) (coll : List String) (n : String)
    (hmem : n ∈ comps.map (fun c => c.name)) (hfresh : n ∉ coll) :
    freshMeasure comps (coll ++ [n]) < freshMeasure comps coll := by
  have hset : (coll ++ [n]).toFinset = insert n coll.toFinset := by
    ext y
    simp [or_comm]
  have hn : n ∈ (comps.map (fun c => c.name)).toFinset \ coll.toFinset := by
    simp only [Finset.mem_sdiff, List.mem_toFinset]
    exact ⟨hmem, hfresh⟩
  unfold freshMeasure
  rw [hset, Finset.sdiff_insert]
  have hcard := Finset.card_erase_of_mem hn
  have hpos : 0 < ((comps.map (fun c => c.name)).toFinset \ coll.toFinset).card :=
    Finset.card_pos.mpr ⟨n, hn⟩
  omega

/-- Fuel sufficiency: `collectGo` succeeds whenever the fuel exceeds the
number of not-yet-visited catalog names. -/
theorem collectGo_isSome :
    ∀ (fuel : Nat) (comps : List ComponentInfo) (b n : String) (coll : List String),
      freshMeasure comps coll < fuel → (collectGo fuel comps b n coll).isSome := by
  intro fuel
  induction fuel with
  | zero => intro comps b n coll h; omega
  | succ fuel ih =>
    intro comps b n coll hlt
    rw [collectGo]
    by_cases hc : coll.contains n
    · rw [if_pos hc]; rfl
    · rw [if_neg hc]
      cases hf : findComp comps n with
      | none => rfl
      | some component =>
        have hcomp := List.mem_of_find?_eq_some hf
        have hname : component.name = n := by
          have := List.find?_some hf
          simpa using this
        have hmem : n ∈ comps.map (fun c => c.name) :=
          List.mem_map.mpr ⟨component, hcomp, hname⟩
        have hfresh : n ∉ coll := by simpa using hc
        have hdrop := freshMeasure_add_lt comps coll n hmem hfresh
        have hgext : ∀ c d C', (if sw d b then collectGo fuel comps b (stripRefName b d) c
            else some c) = some C' → ∃ e, C' = c ++ e := by
          intro c d C' hcd
          by_cases hswd : sw d b
          · rw [if_pos hswd] at hcd
            exact collectGo_ext fuel comps b (stripRefName b d) c C' hcd
          · rw [if_neg hswd] at hcd
            cases hcd
            exact ⟨[], by simp⟩
        refine foldl_collectStep_some (freshMeasure comps) fuel hgext
          (freshMeasure_append_le comps) ?_ _ _ ?_
        · intro c d hcf
          by_cases hswd : sw d b
          · rw [if_pos hswd]
            exact ih comps b (stripRefName b d) c hcf
          · rw [if_neg hswd]
            rfl
        · omega

/-- The wrapper `collectInternalDeps` is the unique successful result of the
fuelled recursion. -/
theorem collectInternalDeps_spec (comps : List ComponentInfo) (b n : String) :
    collectGo (comps.length + 1) comps b n [] = some (collectInternalDeps comps b n []) := by
  have hs := collectGo_isSome (comps.length + 1) comps b n [] (by
    have h1 : freshMeasure comps [] ≤ (comps.map (fun c => c.name)).length := by
      unfold freshMeasure
      simpa using List.toFinset_card_le (comps.map (fun c => c.name))
    simp only [List.length_map] at h1
    omega)
  cases h : collectGo (comps.length + 1) comps b n [] with
  | none => rw [h] at hs; cases hs
  | some C => simp [collectInternalDeps, h]

/-- The closure computed by `collectInternalDeps` is exactly the set of names
reachable from the starting name in the internal reference graph. -/
theorem collect_mem_iff (comps : List ComponentInfo) (b n x : String) :
    x ∈ collectInternalDeps comps b n [] ↔ Reaches comps b n x := by
  have hspec := collectInternalDeps_spec comps b n
  constructor
  · intro hx
    rcases collectGo_mem _ _ _ _ _ _ hspec x hx with h0 | hr
    · cases h0
    · exact hr
  · intro hr
    obtain ⟨c, hc⟩ := reaches_src hr
    have hn : n ∈ collectInternalDeps comps b n [] :=
      collectGo_enters _ _ _ _ _ _ c hspec hc
    rcases collectGo_complete n x hr _ n [] _ hspec hn with h | ⟨y, hy, _⟩
    · exact h
    · cases hy

/-- The closure list contains no duplicate names. -/
theorem collect_nodup (comps : List ComponentInfo) (b n : String) :
    (collectInternalDeps comps b n []).Nodup :=
  collectGo_nodup _ _ _ _ _ _ (collectInternalDeps_spec comps b n) List.nodup_nil

/-- A list is always a front match of itself extended on the right. -/
theorem leadsWith_self_append : ∀ (p q : List Char), leadsWith p (p ++ q) = true
  | [], _ => rfl
  | c :: p, q => by simp [leadsWith, leadsWith_self_append p q]

/-- Appending on the right preserves the JavaScript `startsWith` test. -/
theorem sw_self_append (b s : String) : sw (b ++ s) b = true := by
  unfold sw
  have h : (b ++ s).data = b.data ++ s.data := by simp
  rw [h]
  exact leadsWith_self_append _ _

/-- Membership is unchanged by the keep-first deduplication. -/
theorem mem_dedupKeepFirst {l : List String} {y : String} :
    y ∈ dedupKeepFirst l ↔ y ∈ l := by
  unfold dedupKeepFirst
  rw [mem_foldl_setAdd]
  simp

/-- The conditional `Option` wrapping preserves freedom from duplicates. -/
theorem nodup_optList {l : List String} (h : l.Nodup) :
    ((if l.length > 0 then some l else none).getD []).Nodup := by
  split
  · simpa using h
  · simp

/-- C3: with the default configuration, the import specifier
`@/components/ui/button` classifies as the external-catalog (shadcn) name
`button`, `@/lib/utils` as the internal name `utils`, `react` as ignored, and
`@radix-ui/react-dialog` as the npm package `@radix-ui/react-dialog`. -/
theorem c3_dependency_classification :
    categorizeImport "@/components/ui/button" "src/registry/ui/x.tsx" "/proj"
        (recMerge DEFAULT_SHADCN_COMPONENTS
          (resolveOptions { baseUrl := exBase }).shadcnComponents) =
      ⟨ImpKind.shadcn, "button"⟩ ∧
    categorizeImport "@/lib/utils" "src/registry/ui/x.tsx" "/proj"
        (recMerge DEFAULT_SHADCN_COMPONENTS
          (resolveOptions { baseUrl := exBase }).shadcnComponents) =
      ⟨ImpKind.internal, "utils"⟩ ∧
    categorizeImport "react" "src/registry/ui/x.tsx" "/proj"
        (recMerge DEFAULT_SHADCN_COMPONENTS
          (resolveOptions { baseUrl := exBase }).shadcnComponents) =
      ⟨ImpKind.ignored, "react"⟩ ∧
    categorizeImport "@radix-ui/react-dialog" "src/registry/ui/x.tsx" "/proj"
        (recMerge DEFAULT_SHADCN_COMPONENTS
          (resolveOptions { baseUrl := exBase }).shadcnComponents) =
      ⟨ImpKind.npm, "@radix-ui/react-dialog"⟩ := by
  decide

/-- C8: comment stripping before export scanning: the `displayName` idiom does
not duplicate an already-recorded export, and an export inside a line comment
produces no exports. -/
theorem c8_comment_stripping :
    (extractExportsFromContent
      "export const Foo = () => \x7b\x7d\nFoo.displayName = \"Foo\"").exports = ["Foo"] ∧
    (extractExportsFromContent "// export const Bar").exports = [] := by
  decide

/-- C2: on the mutual-cycle catalog, computing the closure of `a` terminates
for every sufficient fuel with the visited list `[a, b]`, the wrapper returns
`[a, b]`, and the generated manifest embeds exactly the files of `a` and `b`,
each exactly once. -/
theorem c2_closure_terminates_on_cycle :
    (∀ fuel, 3 ≤ fuel → collectGo fuel cycCatalog exBase "a" [] = some ["a", "b"]) ∧
    collectInternalDeps cycCatalog exBase "a" [] = ["a", "b"] ∧
    (mkComponentItem cycFS "/p" cycCatalog exOptions compA).files =
      [⟨"reg/a.tsx", "AAA", "registry:ui", "components/ui/a.tsx"⟩,
       ⟨"reg/b.tsx", "BBB", "registry:ui", "components/ui/b.tsx"⟩] := by
  have h3 : collectGo 3 cycCatalog exBase "a" [] = some ["a", "b"] := by decide
  exact ⟨fun fuel hf => collectGo_mono 3 fuel hf _ _ _ _ _ h3, by decide, by decide⟩

/-- Witness for C2: the termination statement applied at the concrete fuel 3. -/
theorem c2_closure_terminates_on_cycle_witness :
    collectGo 3 cycCatalog exBase "a" [] = some ["a", "b"] :=
  c2_closure_terminates_on_cycle.1 3 (by decide)

/-- C5: for every component and preview example, `generateDemoBlock` produces
exactly one manifest named `<component>-demo-<example>` whose
`registryDependencies` list is present and contains the root component's own
generated manifest URL `<baseUrl>/<component>.json`. -/
theorem c5_demo_block_root_pointer (fsm : FSModel) (cwd : String)
    (component : ComponentInfo) (preview : ComponentPreviewData)
    (allComponents : List ComponentInfo) (options : ResolvedOptions) :
    (generateDemoBlock fsm cwd component preview allComponents options).name =
      component.name ++ "-demo-" ++ preview.«example» ∧
    ∃ deps,
      (generateDemoBlock fsm cwd component preview allComponents options).registryDependencies =
        some deps ∧
      (options.baseUrl ++ "/" ++ component.name ++ ".json") ∈ deps := by
  refine ⟨rfl, ?_⟩
  have hm : (options.baseUrl ++ "/" ++ component.name ++ ".json") ∈
      dedupKeepFirst
        ([options.baseUrl ++ "/" ++ component.name ++ ".json"] ++
          component.registryDependencies.filter
            (fun dep => !(scontains dep options.baseUrl)) ++
          detectShadcnInCode preview.code) := by
    rw [mem_dedupKeepFirst]
    simp
  have hlen :
      (dedupKeepFirst
        ([options.baseUrl ++ "/" ++ component.name ++ ".json"] ++
          component.registryDependencies.filter
            (fun dep => !(scontains dep options.baseUrl)) ++
          detectShadcnInCode preview.code)).length > 0 :=
    List.length_pos.mpr (List.ne_nil_of_mem hm)
  refine ⟨_, ?_, hm⟩
  show (if _ > 0 then some _ else none) = some _
  rw [if_pos hlen]

/-- C10: each of the three lists returned by `extractDependenciesFromContent`
is free of duplicate entries, for every content, file path, working directory
and configuration. -/
theorem c10_extract_dependencies_nodup (content filePath cwd : String)
    (options : ResolvedOptions) :
    (extractDependenciesFromContent content filePath cwd options).dependencies.Nodup ∧
    (extractDependenciesFromContent content filePath cwd options).registryDependencies.Nodup ∧
    (extractDependenciesFromContent content filePath cwd options).internalDependencies.Nodup := by
  unfold extractDependenciesFromContent
  dsimp only
  refine @List.foldlRecOn _ _
    (fun acc : ExtractedDependencies => acc.dependencies.Nodup ∧
      acc.registryDependencies.Nodup ∧ acc.internalDependencies.Nodup) _ _ _ ?_ ?_
  · exact ⟨List.nodup_nil, List.nodup_nil, List.nodup_nil⟩
  · intro acc hacc m _
    dsimp only
    split
    · exact hacc
    · cases (categorizeImport m.2 filePath cwd
        (recMerge DEFAULT_SHADCN_COMPONENTS options.shadcnComponents)).kind with
      | npm => exact ⟨nodup_setAdd hacc.1, hacc.2.1, hacc.2.2⟩
      | shadcn => exact ⟨hacc.1, nodup_setAdd hacc.2.1, hacc.2.2⟩
      | internal => exact ⟨hacc.1, hacc.2.1, nodup_setAdd hacc.2.2⟩
      | ignored => exact hacc

/-- Counterexample to C7 as stated: the candidate `typeFoo` is a recognized
exported identifier and starts with a letter, yet it is not kept, because the
final filter also drops every name starting with `type`. -/
theorem c7_counterexample :
    "typeFoo" ∈ exportCandidates "export const typeFoo = 1" ∧
    letterFirst "typeFoo" = true ∧
    "typeFoo" ∉ (extractExportsFromContent "export const typeFoo = 1").exports := by
  decide

/-- C7 amended: the export list has no duplicates, and a candidate name is
kept if and only if it starts with a letter and does not start with the
four-character prefix `type`. -/
theorem c7_export_filter_amended (content : String) :
    (extractExportsFromContent content).exports.Nodup ∧
    ∀ name, name ∈ (extractExportsFromContent content).exports ↔
      name ∈ exportCandidates content ∧ sw name "type" = false ∧
        letterFirst name = true := by
  constructor
  · show (((exportCandidates content).foldl setAdd []).filter exportKeep).Nodup
    exact (nodup_foldl_setAdd List.nodup_nil).filter _
  · intro name
    show name ∈ ((exportCandidates content).foldl setAdd []).filter exportKeep ↔ _
    rw [List.mem_filter, mem_foldl_setAdd]
    unfold exportKeep
    constructor
    · rintro ⟨h0 | hm, hk⟩
      · cases h0
      · simp only [Bool.and_eq_true, Bool.not_eq_true'] at hk
        exact ⟨hm, hk.1, hk.2⟩
    · rintro ⟨hm, h1, h2⟩
      exact ⟨Or.inr hm, by rw [h1, h2]; rfl⟩

/-- C6: an unresolved internal reference is dropped silently: the closure
computation still succeeds, the unresolved name is not collected, every
embedded file comes from a resolvable collected name different from it, and
its reference URL does not survive into the manifest's dependency list. -/
theorem c6_unresolved_reference_dropped (comps : List ComponentInfo)
    (options : ResolvedOptions) (fsm : FSModel) (cwd : String)
    (component : ComponentInfo) (u : String)
    (hu : findComp comps u = none)
    (hmem : (options.baseUrl ++ "/" ++ u ++ ".json") ∈ component.registryDependencies) :
    (collectGo (comps.length + 1) comps options.baseUrl component.name []).isSome ∧
    u ∉ collectInternalDeps comps options.baseUrl component.name [] ∧
    (∀ f ∈ (mkComponentItem fsm cwd comps options component).files,
      ∃ n c, n ∈ collectInternalDeps comps options.baseUrl component.name [] ∧
        findComp comps n = some c ∧ f = mkRegistryFile fsm cwd c ∧ n ≠ u) ∧
    (options.baseUrl ++ "/" ++ u ++ ".json") ∉
      (mkComponentItem fsm cwd comps options component).registryDependencies.getD [] := by
  have hnu : u ∉ collectInternalDeps comps options.baseUrl component.name [] := by
    intro hin
    have hr := (collect_mem_iff comps options.baseUrl component.name u).mp hin
    obtain ⟨c, hc⟩ := reaches_tgt hr
    rw [hu] at hc
    cases hc
  refine ⟨?_, hnu, ?_, ?_⟩
  · rw [collectInternalDeps_spec]
    rfl
  · intro f hf
    have hf' : f ∈ (collectInternalDeps comps options.baseUrl component.name []).filterMap
        (fun depName => (findComp comps depName).map (mkRegistryFile fsm cwd)) := hf
    obtain ⟨n, hn, hmap⟩ := List.mem_filterMap.mp hf'
    obtain ⟨c, hc, hfc⟩ := Option.map_eq_some'.mp hmap
    exact ⟨n, c, hn, hc, hfc.symm, fun hne => hnu (hne ▸ hn)⟩
  · intro hin
    have hin' : (options.baseUrl ++ "/" ++ u ++ ".json") ∈
        (if ((collectInternalDeps comps options.baseUrl component.name []).foldl
            (fun acc depName =>
              (extDepsOf options.baseUrl comps depName).foldl setAdd acc) []).length > 0
          then some ((collectInternalDeps comps options.baseUrl component.name []).foldl
            (fun acc depName =>
              (extDepsOf options.baseUrl comps depName).foldl setAdd acc) [])
          else none).getD [] := hin
    rw [mem_optList, mem_foldl_setAddU] at hin'
    rcases hin' with h0 | ⟨n, _, hd⟩
    · cases h0
    · unfold extDepsOf at hd
      cases hfc : findComp comps n with
      | none => rw [hfc] at hd; cases hd
      | some dep =>
        rw [hfc] at hd
        have hsw := (List.mem_filter.mp hd).2
        have heq : options.baseUrl ++ "/" ++ u ++ ".json" =
            options.baseUrl ++ ("/" ++ u ++ ".json") := by
          simp [String.append_assoc]
        rw [heq, sw_self_append] at hsw
        cases hsw

/-- Witness for C6: the dangling catalog, whose only component references the
absent component `ghost`. -/
theorem c6_unresolved_reference_dropped_witness :
    (collectGo (danglingCatalog.length + 1) danglingCatalog exOptions.baseUrl
      danglingComp.name []).isSome ∧
    "ghost" ∉ collectInternalDeps danglingCatalog exOptions.baseUrl danglingComp.name [] ∧
    (∀ f ∈ (mkComponentItem cycFS "/p" danglingCatalog exOptions danglingComp).files,
      ∃ n c, n ∈ collectInternalDeps danglingCatalog exOptions.baseUrl danglingComp.name [] ∧
        findComp danglingCatalog n = some c ∧ f = mkRegistryFile cycFS "/p" c ∧ n ≠ "ghost") ∧
    (exOptions.baseUrl ++ "/" ++ "ghost" ++ ".json") ∉
      (mkComponentItem cycFS "/p" danglingCatalog exOptions danglingComp).registryDependencies.getD
        [] :=
  c6_unresolved_reference_dropped danglingCatalog exOptions cycFS "/p" danglingComp "ghost"
    (by decide) (by decide)

/-- Counterexample to C1 as stated: in the shadowing catalog the name `button`
is reachable from `root` both as an internal component (so its file is
embedded) and as an external catalog reference (so it appears in the
manifest's dependency list) — the same name occurs in both places. -/
theorem c1_counterexample :
    "button" ∈ collectInternalDeps shadowCatalog exOptions.baseUrl "root" [] ∧
    mkRegistryFile cycFS "/p" shadowButton ∈
      (mkComponentItem cycFS "/p" shadowCatalog exOptions shadowRoot).files ∧
    "button" ∈
      (mkComponentItem cycFS "/p" shadowCatalog exOptions shadowRoot).registryDependencies.getD
        [] := by
  decide

/-- C1 amended: with names considered together with their classification the
partition holds — the closure list is duplicate-free and is exactly the set of
reachable internal names, the embedded files are exactly the resolved files of
the closure, and the manifest's reference list consists exactly of the
non-same-registry reference entries of closure members (so an internal
reference URL never appears there); a bare external name may however
textually coincide with an embedded internal component name. -/
theorem c1_partition_amended (fsm : FSModel) (cwd : String)
    (comps : List ComponentInfo) (options : ResolvedOptions)
    (component : ComponentInfo) :
    (collectInternalDeps comps options.baseUrl component.name []).Nodup ∧
    (∀ n, n ∈ collectInternalDeps comps options.baseUrl component.name [] ↔
      Reaches comps options.baseUrl component.name n) ∧
    (mkComponentItem fsm cwd comps options component).files =
      (collectInternalDeps comps options.baseUrl component.name []).filterMap
        (fun n => (findComp comps n).map (mkRegistryFile fsm cwd)) ∧
    ((mkComponentItem fsm cwd comps options component).registryDependencies.getD []).Nodup ∧
    (∀ d, d ∈ (mkComponentItem fsm cwd comps options component).registryDependencies.getD [] ↔
      ∃ n c, Reaches comps options.baseUrl component.name n ∧ findComp comps n = some c ∧
        d ∈ c.registryDependencies ∧ sw d options.baseUrl = false) := by
  refine ⟨collect_nodup comps options.baseUrl component.name,
    fun n => collect_mem_iff comps options.baseUrl component.name n, rfl, ?_, ?_⟩
  · show ((if ((collectInternalDeps comps options.baseUrl component.name []).foldl
        (fun acc depName => (extDepsOf options.baseUrl comps depName).foldl setAdd acc)
        []).length > 0
      then some ((collectInternalDeps comps options.baseUrl component.name []).foldl
        (fun acc depName => (extDepsOf options.baseUrl comps depName).foldl setAdd acc) [])
      else none).getD []).Nodup
    exact nodup_optList (nodup_foldl_setAddU List.nodup_nil)
  · intro d
    have hshow : d ∈ (mkComponentItem fsm cwd comps options component).registryDependencies.getD
        [] ↔ d ∈ (if ((collectInternalDeps comps options.baseUrl component.name []).foldl
          (fun acc depName => (extDepsOf options.baseUrl comps depName).foldl setAdd acc)
          []).length > 0
        then some ((collectInternalDeps comps options.baseUrl component.name []).foldl
          (fun acc depName => (extDepsOf options.baseUrl comps depName).foldl setAdd acc) [])
        else none).getD [] := Iff.rfl
    rw [hshow, mem_optList, mem_foldl_setAddU]
    constructor
    · rintro (h0 | ⟨n, hn, hd⟩)
      · cases h0
      · unfold extDepsOf at hd
        cases hfc : findComp comps n with
        | none => rw [hfc] at hd; cases hd
        | some c =>
          rw [hfc] at hd
          obtain ⟨hdc, hsw⟩ := List.mem_filter.mp hd
          exact ⟨n, c, (collect_mem_iff comps options.baseUrl component.name n).mp hn, hfc,
            hdc, by simpa using hsw⟩
    · rintro ⟨n, c, hr, hfc, hdc, hsw⟩
      refine Or.inr ⟨n, (collect_mem_iff comps options.baseUrl component.name n).mpr hr, ?_⟩
      unfold extDepsOf
      rw [hfc]
      exact List.mem_filter.mpr ⟨hdc, by rw [hsw]; rfl⟩

/-- Cancellation of a shared front and back part of a string concatenation. -/
theorem append_inj_mid (P a b s : String) (h : P ++ a ++ s = P ++ b ++ s) : a = b := by
  have hd : P.data ++ a.data ++ s.data = P.data ++ b.data ++ s.data := by
    have h2 := congrArg String.data h
    simpa using h2
  rw [List.append_assoc, List.append_assoc] at hd
  have h3 : a.data = b.data := List.append_cancel_right (List.append_cancel_left hd)
  cases a
  cases b
  simp_all

/-- Counterexample to C9 as stated: the demo block for `root` embeds the
source file of the additional descriptor `button` even though no exported
symbol of `button` is textually referenced in the example code — file
inclusion is decided by the reference list alone. -/
theorem c9_counterexample :
    (⟨"registry/components/root/button.tsx", cycFS.readFile (resolveAbs "/p" "reg/button.tsx"),
        "registry:component", "components/ui/button.tsx"⟩ : RegistryFile) ∈
      (generateDemoBlock cycFS "/p" shadowRoot plainPreview shadowCatalog exOptions).files ∧
    (∀ exp ∈ shadowButton.exports, scontains plainPreview.code ("<" ++ exp) = false) := by
  decide

/-- C9 amended: for every other descriptor `c`, the demo block contains `c`'s
source file exactly when some entry of the root's reference list contains
`c.name` as a substring or equals it; whether `c`'s exported symbols occur in
the example code plays no role in file inclusion. -/
theorem c9_demo_files_amended (fsm : FSModel) (cwd : String)
    (component : ComponentInfo) (preview : ComponentPreviewData)
    (allComponents : List ComponentInfo) (options : ResolvedOptions)
    (c : ComponentInfo) (hc : c ∈ allComponents) (hne : c.name ≠ component.name) :
    ((⟨"registry/" ++ options.registryName ++ "/" ++ component.name ++ "/" ++ c.name ++ ".tsx",
        fsm.readFile (resolveAbs cwd c.sourcePath), "registry:component",
        "components/ui/" ++ c.name ++ ".tsx"⟩ : RegistryFile) ∈
      (generateDemoBlock fsm cwd component preview allComponents options).files) ↔
    ∃ dep ∈ component.registryDependencies,
      scontains dep c.name = true ∨ dep = c.name := by
  have hfiles : (generateDemoBlock fsm cwd component preview allComponents options).files =
      [{ path := "registry/" ++ options.registryName ++ "/" ++ component.name ++ "/page.tsx",
         content := generateDemoPage component preview.code
           (additionalComponentsFor component allComponents),
         type := "registry:page",
         target := "app/" ++ component.name ++ "/page.tsx" },
       { path := "registry/" ++ options.registryName ++ "/" ++ component.name ++ "/" ++
           component.name ++ ".tsx",
         content := fsm.readFile (resolveAbs cwd component.sourcePath),
         type := "registry:component",
         target := "components/ui/" ++ component.name ++ ".tsx" }] ++
      (additionalComponentsFor component allComponents).map (fun addComp =>
        { path := "registry/" ++ options.registryName ++ "/" ++ component.name ++ "/" ++
            addComp.name ++ ".tsx",
          content := fsm.readFile (resolveAbs cwd addComp.sourcePath),
          type := "registry:component",
          target := "components/ui/" ++ addComp.name ++ ".tsx" }) := rfl
  rw [hfiles]
  constructor
  · intro hmem
    rcases List.mem_append.mp hmem with hpair | hmap
    · rcases List.mem_cons.mp hpair with hpage | hrest
      · have ht := congrArg RegistryFile.type hpage
        dsimp only at ht
        exact absurd ht (by decide)
      · rcases List.mem_cons.mp hrest with hroot | h0
        · have hpath := congrArg RegistryFile.path hroot
          have heq : ("registry/" ++ options.registryName ++ "/" ++ component.name ++ "/") ++
              c.name ++ ".tsx" =
              ("registry/" ++ options.registryName ++ "/" ++ component.name ++ "/") ++
              component.name ++ ".tsx" := by
            simpa [String.append_assoc] using hpath
          exact absurd (append_inj_mid _ _ _ _ heq) hne
        · cases h0
    · obtain ⟨c', hc', hmk⟩ := List.mem_map.mp hmap
      have hpath := congrArg RegistryFile.path hmk
      have heq : ("registry/" ++ options.registryName ++ "/" ++ component.name ++ "/") ++
          c'.name ++ ".tsx" =
          ("registry/" ++ options.registryName ++ "/" ++ component.name ++ "/") ++
          c.name ++ ".tsx" := by
        simpa [String.append_assoc] using hpath
      have hname : c'.name = c.name := append_inj_mid _ _ _ _ heq
      have hpred := (List.mem_filter.mp hc').2
      simp only [Bool.and_eq_true] at hpred
      obtain ⟨dep, hdep, hor⟩ := List.any_eq_true.mp hpred.2
      rw [hname] at hor
      simp only [Bool.or_eq_true] at hor
      rcases hor with h1 | h1
      · exact ⟨dep, hdep, Or.inl h1⟩
      · exact ⟨dep, hdep, Or.inr (by simpa using h1)⟩
  · rintro ⟨dep, hdep, hor⟩
    have hcf : c ∈ additionalComponentsFor component allComponents := by
      refine List.mem_filter.mpr ⟨hc, ?_⟩
      simp only [Bool.and_eq_true]
      refine ⟨by simpa using hne, List.any_eq_true.mpr ⟨dep, hdep, ?_⟩⟩
      rcases hor with h1 | h1
      · simp [h1]
      · simp [h1]
    exact List.mem_append_right _ (List.mem_map.mpr ⟨c, hcf, rfl⟩)

/-- Witness for C9 amended: the shadowing catalog with the plain preview. -/
theorem c9_demo_files_amended_witness :
    ((⟨"registry/" ++ exOptions.registryName ++ "/" ++ shadowRoot.name ++ "/" ++
        shadowButton.name ++ ".tsx",
        cycFS.readFile (resolveAbs "/p" shadowButton.sourcePath), "registry:component",
        "components/ui/" ++ shadowButton.name ++ ".tsx"⟩ : RegistryFile) ∈
      (generateDemoBlock cycFS "/p" shadowRoot plainPreview shadowCatalog exOptions).files) ↔
    ∃ dep ∈ shadowRoot.registryDependencies,
      scontains dep shadowButton.name = true ∨ dep = shadowButton.name :=
  c9_demo_files_amended cycFS "/p" shadowRoot plainPreview shadowCatalog exOptions
    shadowButton (by decide) (by decide)

/-- C4: determinism of the registry build: the output documents are a function
of the file-system snapshot and the configuration alone — two runs over
snapshots that agree on every read produce identical outputs. -/
theorem c4_build_deterministic (fs1 fs2 : FSModel) (o : PluginOptions) (cwd : String)
    (hr : ∀ p, fs1.readFile p = fs2.readFile p)
    (hd : ∀ d, fs1.readdir d = fs2.readdir d)
    (hf : ∀ p, fs1.isFile p = fs2.isFile p) :
    buildOutputs fs1 o cwd = buildOutputs fs2 o cwd := by
  obtain ⟨r1, d1, f1⟩ := fs1
  obtain ⟨r2, d2, f2⟩ := fs2
  have h1 : r1 = r2 := funext hr
  have h2 : d1 = d2 := funext hd
  have h3 : f1 = f2 := funext hf
  subst h1
  subst h2
  subst h3
  rfl

/-- Witness for C4: two syntactically different but extensionally equal
file-system models produce the same outputs. -/
theorem c4_build_deterministic_witness :
    buildOutputs fsW1 { baseUrl := exBase } "/p" =
      buildOutputs fsW2 { baseUrl := exBase } "/p" :=
  c4_build_deterministic fsW1 fsW2 { baseUrl := exBase } "/p"
    (fun p => by simp [fsW1, fsW2])
    (fun d => by simp [fsW1, fsW2])
    (fun p => by simp [fsW1, fsW2])
